import Mathlib

/-!
# Verification of the 2D-canvas dependency-graph evaluator

This development embeds the backend code executor of the 2D-canvas notebook
(`backend/code_executor.py`) as Lean functions and proves the specified
properties of its dependency-graph resolution algorithm.

The embedding is shallow: Python dicts become association lists in insertion
order, the instance-level execution cache becomes explicitly threaded state,
exceptions become an explicit result constructor, and the unbounded recursion
of `_execute_dag_node` is driven by a fuel parameter that is proved sufficient
for the fuel value used at the top level.  The Python `exec` machinery that
actually runs a cell's code is out of scope for the resolver (the spec treats
it as an opaque `Evaluate(code, env)` capability); it is modelled by the
`PyEngine` parameter below.
-/

namespace CanvasExec

/-- A Python `dict` with keys `K` and values `V`, as an association list kept in
insertion order with unique keys (all operations below preserve uniqueness when
starting from `[]`, mirroring CPython semantics of `d[k]`, `k in d`, `d.get`,
`d[k] = v` and `d.update`). -/
abbrev Dict (K V : Type) := List (K × V)

/-- `d.get(k)`: the value at key `k`, if present (first matching entry). -/
def dictGet {K V : Type} [DecidableEq K] : Dict K V → K → Option V
  | [], _ => none
  | (k, v) :: rest, key => if k = key then some v else dictGet rest key

/-- `k in d`. -/
def dictContains {K V : Type} [DecidableEq K] (d : Dict K V) (k : K) : Bool :=
  (dictGet d k).isSome

/-- `d[k] = v`: replace the binding in place when the key exists, otherwise
append it at the end (CPython insertion-order semantics). -/
def dictSet {K V : Type} [DecidableEq K] : Dict K V → K → V → Dict K V
  | [], k, v => [(k, v)]
  | (k', v') :: rest, k, v =>
      if k' = k then (k, v) :: rest else (k', v') :: dictSet rest k v

/-- `d.update(items)`: assign each pair in order. -/
def dictUpdate {K V : Type} [DecidableEq K] (d : Dict K V) (items : List (K × V)) : Dict K V :=
  items.foldl (fun acc kv => dictSet acc kv.1 kv.2) d

/-- An execution environment: a Python namespace mapping names to values. -/
abbrev Env (V : Type) := Dict String V

/-- Modelled from the spec: the observable effect of handing one cell's source
text to the opaque code-execution capability (`exec` plus the AST
instrumentation of `_execute_code`): the sequence of name bindings the code
assigned, in order (cut short at the point where an exception escaped, so a
failing run reports the partial assignments made before failing), the rendered
text of the escaped exception if any (`TypeName: message`), the value of the
trailing expression if the cell ends in one, and the captured output streams. -/
structure ExecEffect (V : Type) where
  updates : List (String × V)
  raised : Option String
  value : Option V
  stdout : String
  stderr : String

/-- Modelled from the spec: the opaque `Evaluate(code, env)` capability
(§6 of the spec).  `run` reports what executing `code` against an environment
does; `noneVal` is the Python `None` value that `_execute_code` stores under
`_last_expr_result` before running the code; `classify` is the host-language
introspection used by `_execute_box_code` on a non-`None` trailing value
(matplotlib figure / `_repr_html_` object / anything else). -/
inductive RichClass where
  | figure (png : String)
  | htmlRepr (html : String) (plainText : String)
  | plainVal (s : String)

structure PyEngine (V : Type) where
  run : String → Env V → ExecEffect V
  noneVal : V
  classify : V → RichClass

/-- Exceptions raised by the resolver itself (both are `ValueError`s in the
source). -/
inductive PyErr where
  | cycleDetected (nodeId : String)
  | notFound (nodeId : String)
deriving DecidableEq, Repr

/-- The message text of a resolver exception, exactly as in the source. -/
def msgOf : PyErr → String
  | .cycleDetected n => "Cycle detected in dependency graph at node " ++ n
  | .notFound n => "Box with ID " ++ n ++ " not found in graph"

/-- `f"{type(e).__name__}: {str(e)}\n"` as rendered by the
`execute_with_dependencies` exception handler for a resolver error (both
resolver errors are `ValueError`s; the appended `traceback.format_exc()` text
is runtime introspection and is not modelled). -/
def errText (e : PyErr) : String :=
  "ValueError: " ++ msgOf e ++ "\n"

/-- A box as the executor reads it: only the `id` and `content` fields are
accessed. -/
structure BoxD where
  id : String
  content : String
deriving DecidableEq, Repr

/-- An arrow as the executor reads it: the `start` and `end` fields. -/
structure ArrowD where
  start : String
  «end» : String
deriving DecidableEq, Repr

/-- Result shape returned to the caller: either plain text output or a
structured record with optional text output plus mime-tagged payloads. -/
inductive OutputVal where
  | text (s : String)
  | rich (textOut : Option String) (data : List (String × String))
deriving DecidableEq, Repr

/-- The `{"output": ..., "error": ...}` record of the executor. -/
structure ExecResult where
  output : OutputVal
  error : Bool
deriving DecidableEq, Repr

/-- The outcome of one `_execute_dag_node` call: a returned environment, a
propagating Python exception, or recursion-budget exhaustion (the fuel
analogue of Python's recursion limit; proved unreachable for the fuel used at
the top level). -/
inductive DagOut (α : Type) where
  | ok (a : α)
  | raise (e : PyErr)
  | fuelOut
deriving Repr

/-- The mutable state the recursion threads: the instance's
`self.execution_cache` plus the (ghost) log of node ids in the order their
content was handed to the engine by `_execute_single_box`. -/
structure DagState (V : Type) where
  cache : Dict String (Env V)
  log : List String

/-- The result record of `_execute_code`: the environment after running the
code (including partial assignments when it raised), the trailing-expression
value (when no exception escaped), the escaped exception if any, and the
captured streams. -/
structure CodeRun (V : Type) where
  env : Env V
  value : Option V
  raised : Option String
  stdout : String
  stderr : String

/-- `_execute_code(code, env)`: store `None` under `_last_expr_result`, then
run the code against the environment; the environment reflects every
assignment the code performed before (possibly) raising. -/
def execute_code {V : Type} (eng : PyEngine V) (code : String) (env : Env V) : CodeRun V :=
  let env0 := dictSet env "_last_expr_result" eng.noneVal
  let eff := eng.run code env0
  { env := dictUpdate env0 eff.updates
    value := if eff.raised.isSome then none else eff.value
    raised := eff.raised
    stdout := eff.stdout
    stderr := eff.stderr }

/-- `_execute_single_box(code, env)`: run the code and return (a copy of) the
updated environment; an exception is swallowed and the partially updated
environment is returned unchanged beyond the assignments already made. -/
def execute_single_box {V : Type} (eng : PyEngine V) (code : String) (env : Env V) : Env V :=
  (execute_code eng code env).env

/-- `text_output.strip() if text_output else None`. -/
def stripOrNone (s : String) : Option String :=
  if s = "" then none else some s.trim

/-- `_execute_box_code(code, env)`: run the target's code and shape the
result: an escaped exception becomes `{output: diagnostic, error: true}`
(again the appended traceback text is not modelled); otherwise the trailing
value is dispatched on its runtime classification. -/
def execute_box_code {V : Type} (eng : PyEngine V) (code : String) (env : Env V) : ExecResult :=
  let r := execute_code eng code env
  match r.raised with
  | some m => { output := .text (m ++ "\n"), error := true }
  | none =>
    let text_output :=
      (if r.stdout = "" then "" else r.stdout) ++
      (if r.stderr = "" then "" else "\nError: " ++ r.stderr)
    match r.value with
    | none => { output := .text text_output.trim, error := false }
    | some v =>
      match eng.classify v with
      | .figure png =>
          { output := .rich (stripOrNone text_output) [("image/png", png)], error := false }
      | .htmlRepr h p =>
          { output := .rich (stripOrNone text_output) [("text/html", h), ("text/plain", p)],
            error := false }
      | .plainVal s =>
          { output := .rich (stripOrNone text_output) [("text/plain", s)], error := false }

/-- The parent list of a node: `graph.get(node_id, [])`. -/
def parentsOf (graph : Dict String (List String)) (n : String) : List String :=
  (dictGet graph n).getD []

/-- The adjacency build of `execute_with_dependencies`: every box id gets an
empty parent list, then for each arrow in order, if the arrow's `end` is a
known node its `start` is appended to that node's parent list (arrows whose
`end` is unknown are skipped by the `if`). -/
def buildGraph (boxes : List BoxD) (arrows : List ArrowD) : Dict String (List String) :=
  let g := boxes.foldl (fun g b => dictSet g b.id ([] : List String)) []
  arrows.foldl
    (fun g a =>
      if dictContains g a.«end» then
        dictSet g a.«end» ((dictGet g a.«end»).getD [] ++ [a.start])
      else g)
    g

/-- `box_lookup = {box['id']: box for box in boxes}`. -/
def boxLookupOf (boxes : List BoxD) : Dict String BoxD :=
  boxes.foldl (fun m b => dictSet m b.id b) []

/-- The parent loop of `_execute_dag_node`: resolve each parent in order via
`recur` (which is `_execute_dag_node` at one less fuel, with this node added
to the path-local visited set) and fold its environment into the accumulator
with `merged_env.update(parent_env)`; a parent's exception propagates and
aborts the loop. -/
def execute_parents {V : Type}
    (recur : String → DagState V → DagOut (Env V) × DagState V) :
    List String → Env V → DagState V → DagOut (Env V) × DagState V
  | [], acc, st => (.ok acc, st)
  | p :: ps, acc, st =>
    match recur p st with
    | (.ok penv, st') => execute_parents recur ps (dictUpdate acc penv) st'
    | (.raise e, st') => (.raise e, st')
    | (.fuelOut, st') => (.fuelOut, st')

/-- `_execute_dag_node(node_id, graph, box_lookup, visited)`: return the cached
environment when present; raise when the node is on the active recursion path;
raise when the node has no box; otherwise resolve all parents (each recursive
call sees its own copy of the visited set with this node added), merge their
environments in order, execute this node's content on the merged environment,
cache and return the result.  The fuel argument drives the recursion. -/
def execute_dag_node {V : Type} (eng : PyEngine V)
    (graph : Dict String (List String)) (box_lookup : Dict String BoxD) :
    Nat → String → List String → DagState V → DagOut (Env V) × DagState V
  | 0, _, _, st => (.fuelOut, st)
  | fuel + 1, node_id, visited, st =>
    match dictGet st.cache node_id with
    | some env => (.ok env, st)
    | none =>
      if visited.contains node_id then (.raise (.cycleDetected node_id), st)
      else
        match dictGet box_lookup node_id with
        | none => (.raise (.notFound node_id), st)
        | some box =>
          match execute_parents
              (fun p st' => execute_dag_node eng graph box_lookup fuel p (node_id :: visited) st')
              (parentsOf graph node_id) [] st with
          | (.ok merged, st') =>
            let env := execute_single_box eng box.content merged
            (.ok env, { cache := dictSet st'.cache node_id env, log := st'.log ++ [node_id] })
          | (.raise e, st') => (.raise e, st')
          | (.fuelOut, st') => (.fuelOut, st')

/-- The `CodeExecutor` instance state: its `execution_cache`. -/
structure CodeExecutor (V : Type) where
  execution_cache : Dict String (Env V)

/-- `reset_cache`. -/
def reset_cache {V : Type} (_self : CodeExecutor V) : CodeExecutor V :=
  { execution_cache := [] }

/-- The fuel handed to `execute_dag_node` by the top-level call: strictly more
than the number of distinct node ids that any recursion chain can visit
(`fuel_sufficient` below proves the `fuelOut` branch unreachable). -/
def fuelFor (boxes : List BoxD) (arrows : List ArrowD) : Nat :=
  boxes.length + arrows.length + 2

/-- `execute_with_dependencies(box_id, code, boxes, arrows)`: reset the cache,
build the adjacency, look up the target box, resolve the target through the
DAG, then execute the target's content once more against the resolved
environment and shape the result; a resolver exception is caught and rendered
as an error result.  Besides the caller-facing result, the embedding returns
the executor state and the (ghost) trace of node ids in engine-invocation
order: the DAG-phase log followed by one entry for the final
`_execute_box_code` run of the target. -/
def execute_with_dependencies {V : Type} (eng : PyEngine V) (self : CodeExecutor V)
    (box_id : String) (code : String) (boxes : List BoxD) (arrows : List ArrowD) :
    ExecResult × CodeExecutor V × List String :=
  let self' := reset_cache self
  let graph := buildGraph boxes arrows
  match boxes.find? (fun box => box.id == box_id) with
  | none =>
    ({ output := .text ("Box with ID " ++ box_id ++ " not found"), error := true },
      self', [])
  | some target_box =>
    let box_lookup := boxLookupOf boxes
    match execute_dag_node eng graph box_lookup (fuelFor boxes arrows) box_id []
        { cache := self'.execution_cache, log := [] } with
    | (.ok env, st) =>
      (execute_box_code eng target_box.content env,
        { execution_cache := st.cache }, st.log ++ [box_id])
    | (.raise e, st) =>
      ({ output := .text (errText e), error := true },
        { execution_cache := st.cache }, st.log)
    | (.fuelOut, st) =>
      ({ output := .text "RecursionError: maximum recursion depth exceeded", error := true },
        { execution_cache := st.cache }, st.log)

/-!
## Reference semantics

The functional embedding above identifies a dict with its contents, which is
adequate for every observable output of the executor.  The spec's
copy-on-write claim, however, is about *object identity*: which dict object
the cache holds and whether that object is written after being stored.  The
model below re-runs the same source code with dict objects represented as
heap references, so that `env.copy()` allocates a fresh reference while
`exec`-driven assignment writes through the reference it was handed — exactly
the CPython behaviour the claim is about. -/

namespace RefSem

/-- The heap of dict objects, the allocation counter, and the
`execution_cache` (which in the source holds dict object references, not
copies). -/
structure HeapSt (V : Type) where
  heap : Dict Nat (Env V)
  nextRef : Nat
  cache : Dict String Nat

/-- Allocate a fresh dict object with the given contents. -/
def alloc {V : Type} (st : HeapSt V) (d : Env V) : Nat × HeapSt V :=
  (st.nextRef, { st with heap := dictSet st.heap st.nextRef d, nextRef := st.nextRef + 1 })

/-- Read a dict object's contents. -/
def readRef {V : Type} (st : HeapSt V) (r : Nat) : Env V :=
  (dictGet st.heap r).getD []

/-- Overwrite a dict object's contents in place. -/
def writeRef {V : Type} (st : HeapSt V) (r : Nat) (d : Env V) : HeapSt V :=
  { st with heap := dictSet st.heap r d }

/-- `_execute_code` on a dict object: the `_last_expr_result` store and every
assignment the code performs mutate the object through the reference. -/
def execute_code_ref {V : Type} (eng : PyEngine V) (code : String) (r : Nat)
    (st : HeapSt V) : HeapSt V × Option String :=
  let env0 := dictSet (readRef st r) "_last_expr_result" eng.noneVal
  let st1 := writeRef st r env0
  let eff := eng.run code env0
  (writeRef st1 r (dictUpdate env0 eff.updates), eff.raised)

/-- `_execute_single_box` on a dict object: mutate the given environment
object, then `return env.copy()` — a freshly allocated object. -/
def execute_single_box_ref {V : Type} (eng : PyEngine V) (code : String) (r : Nat)
    (st : HeapSt V) : Nat × HeapSt V :=
  let (st1, _) := execute_code_ref eng code r st
  alloc st1 (readRef st1 r)

/-- The parent loop with reference semantics: resolve each parent via `recur`,
then `merged_env.update(parent_env)` reads the parent object and writes the
merged object in place. -/
def execute_parents_ref {V : Type}
    (recur : String → HeapSt V → DagOut Nat × HeapSt V) :
    List String → Nat → HeapSt V → DagOut Unit × HeapSt V
  | [], _, st => (.ok (), st)
  | p :: ps, mr, st =>
    match recur p st with
    | (.ok pr, st') =>
      let st'' := writeRef st' mr (dictUpdate (readRef st' mr) (readRef st' pr))
      execute_parents_ref recur ps mr st''
    | (.raise e, st') => (.raise e, st')
    | (.fuelOut, st') => (.fuelOut, st')

/-- `_execute_dag_node` with reference semantics: the cache stores the
reference returned by `_execute_single_box`, and a cache hit returns that same
reference (`return self.execution_cache[node_id]`). -/
def execute_dag_node_ref {V : Type} (eng : PyEngine V)
    (graph : Dict String (List String)) (box_lookup : Dict String BoxD) :
    Nat → String → List String → HeapSt V → DagOut Nat × HeapSt V
  | 0, _, _, st => (.fuelOut, st)
  | fuel + 1, node_id, visited, st =>
    match dictGet st.cache node_id with
    | some r => (.ok r, st)
    | none =>
      if visited.contains node_id then (.raise (.cycleDetected node_id), st)
      else
        match dictGet box_lookup node_id with
        | none => (.raise (.notFound node_id), st)
        | some box =>
          let (mr, st0) := alloc st []
          match execute_parents_ref
              (fun p st' => execute_dag_node_ref eng graph box_lookup fuel p (node_id :: visited) st')
              (parentsOf graph node_id) mr st0 with
          | (.ok _, st1) =>
            let (cr, st2) := execute_single_box_ref eng box.content mr st1
            (.ok cr, { st2 with cache := dictSet st2.cache node_id cr })
          | (.raise e, st1) => (.raise e, st1)
          | (.fuelOut, st1) => (.fuelOut, st1)

/-- `_execute_box_code` with reference semantics: only the environment
mutation matters at this level (the result shaping is the same pure
computation as in the functional model); the code is run through
`_execute_code` against the dict object it was handed, mutating it. -/
def execute_box_code_ref {V : Type} (eng : PyEngine V) (code : String) (r : Nat)
    (st : HeapSt V) : HeapSt V :=
  (execute_code_ref eng code r st).1

/-- One full `execute_with_dependencies` request with reference semantics:
the cache starts empty (`reset_cache`) and the heap tracks the dict objects
this request creates.  On success the returned reference is the dict object
the DAG phase produced for the target — the same object the cache holds —
which the final `_execute_box_code` run then mutates. -/
def execute_with_dependencies_ref {V : Type} (eng : PyEngine V)
    (box_id : String) (boxes : List BoxD) (arrows : List ArrowD) :
    DagOut Nat × HeapSt V :=
  let graph := buildGraph boxes arrows
  let box_lookup := boxLookupOf boxes
  let st0 : HeapSt V := { heap := [], nextRef := 0, cache := [] }
  match boxes.find? (fun box => box.id == box_id) with
  | none => (.raise (.notFound box_id), st0)
  | some target_box =>
    match execute_dag_node_ref eng graph box_lookup (fuelFor boxes arrows) box_id [] st0 with
    | (.ok r, st) => (.ok r, execute_box_code_ref eng target_box.content r st)
    | (.raise e, st) => (.raise e, st)
    | (.fuelOut, st) => (.fuelOut, st)

end RefSem

/-!
## Concrete engines

Instances of the opaque execution capability used to evaluate the model on
concrete inputs: the value domain is `Nat`, with `0` in the role of Python
`None`. -/

/-- An engine on which every cell's code does nothing and produces nothing. -/
def inertEngine : PyEngine Nat :=
  { run := fun _ _ => { updates := [], raised := none, value := none, stdout := "", stderr := "" }
    noneVal := 0
    classify := fun v => .plainVal (toString v) }

/-- An engine on which the source text `"incr"` rebinds `x` to one more than
its current value (starting from 0 when absent) — code whose effect exposes
how many times it has been run against an environment chain. -/
def incrEngine : PyEngine Nat :=
  { run := fun code env =>
      if code = "incr" then
        { updates := [("x", ((dictGet env "x").getD 0) + 1)]
          raised := none, value := none, stdout := "", stderr := "" }
      else { updates := [], raised := none, value := none, stdout := "", stderr := "" }
    noneVal := 0
    classify := fun v => .plainVal (toString v) }

/-- An engine driven by a lookup table from source text to the assignments
that running it performs, together with a set of source texts whose execution
fails (after performing its listed assignments). -/
def tableEngine (tbl : Dict String (List (String × Nat))) (failing : List String) :
    PyEngine Nat :=
  { run := fun code _ =>
      { updates := (dictGet tbl code).getD []
        raised := if failing.contains code then some ("RuntimeError: boom in " ++ code) else none
        value := none, stdout := "", stderr := "" }
    noneVal := 0
    classify := fun v => .plainVal (toString v) }

/-!
## Dict lemmas
-/

theorem dictGet_dictSet {K V : Type} [DecidableEq K] (d : Dict K V) (k k' : K) (v : V) :
    dictGet (dictSet d k v) k' = if k = k' then some v else dictGet d k' := by
  induction d with
  | nil => by_cases h : k = k' <;> simp [dictSet, dictGet, h]
  | cons hd tl ih =>
    obtain ⟨k0, v0⟩ := hd
    simp only [dictSet]
    by_cases h0 : k0 = k
    · subst h0
      simp only [if_pos rfl]
      by_cases h : k0 = k' <;> simp [dictGet, h]
    · simp only [if_neg h0]
      by_cases h1 : k0 = k'
      · subst h1
        have hkk : ¬k = k0 := fun hh => h0 hh.symm
        simp [dictGet, hkk]
      · simp [dictGet, h1, ih]

theorem dictGet_dictSet_self {K V : Type} [DecidableEq K] (d : Dict K V) (k : K) (v : V) :
    dictGet (dictSet d k v) k = some v := by
  simp [dictGet_dictSet]

theorem dictGet_dictSet_ne {K V : Type} [DecidableEq K] (d : Dict K V) {k k' : K} (v : V)
    (h : k ≠ k') : dictGet (dictSet d k v) k' = dictGet d k' := by
  simp [dictGet_dictSet, h]

theorem dictContains_dictSet {K V : Type} [DecidableEq K] (d : Dict K V) (k k' : K) (v : V) :
    dictContains (dictSet d k v) k' = (decide (k = k') || dictContains d k') := by
  by_cases h : k = k' <;> simp [dictContains, dictGet_dictSet, h]

theorem dictContains_dictSet_of {K V : Type} [DecidableEq K] {d : Dict K V} {k' : K} (k : K)
    (v : V) (h : dictContains d k' = true) : dictContains (dictSet d k v) k' = true := by
  simp [dictContains_dictSet, h]

theorem mem_of_dictGet {K V : Type} [DecidableEq K] {d : Dict K V} {k : K} {v : V}
    (h : dictGet d k = some v) : (k, v) ∈ d := by
  induction d with
  | nil => simp [dictGet] at h
  | cons hd tl ih =>
    obtain ⟨k0, v0⟩ := hd
    by_cases h0 : k0 = k
    · subst h0
      simp [dictGet] at h
      simp [h]
    · simp [dictGet, h0] at h
      exact List.mem_cons_of_mem _ (ih h)

theorem dictContains_dictUpdate_of {K V : Type} [DecidableEq K] {d : Dict K V} {k : K}
    (items : List (K × V)) (h : dictContains d k = true) :
    dictContains (dictUpdate d items) k = true := by
  induction items generalizing d with
  | nil => exact h
  | cons kv rest ih =>
    show dictContains (dictUpdate (dictSet d kv.1 kv.2) rest) k = true
    exact ih (dictContains_dictSet_of _ _ h)

theorem dictGet_dictUpdate_not_contains {K V : Type} [DecidableEq K] {items : List (K × V)}
    {k : K} (d : Dict K V) (h : dictContains items k = false) :
    dictGet (dictUpdate d items) k = dictGet d k := by
  induction items generalizing d with
  | nil => rfl
  | cons kv rest ih =>
    obtain ⟨k0, v0⟩ := kv
    by_cases h0 : k0 = k
    · simp [dictContains, dictGet, h0] at h
    · simp only [dictContains, dictGet, h0, if_false] at h
      show dictGet (dictUpdate (dictSet d k0 v0) rest) k = dictGet d k
      rw [ih (dictSet d k0 v0) h, dictGet_dictSet_ne _ _ h0]

/-- Whether a dict's entry list has pairwise distinct keys (true for every
dict the executor builds). -/
def keysNodupB {K V : Type} [DecidableEq K] : Dict K V → Bool
  | [] => true
  | (k, _) :: rest => !(dictContains rest k) && keysNodupB rest

theorem dictGet_dictUpdate_of_get {K V : Type} [DecidableEq K] {items : Dict K V} {k : K}
    {v : V} (d : Dict K V) (hnd : keysNodupB items = true) (h : dictGet items k = some v) :
    dictGet (dictUpdate d items) k = some v := by
  induction items generalizing d with
  | nil => simp [dictGet] at h
  | cons kv rest ih =>
    obtain ⟨k0, v0⟩ := kv
    simp only [keysNodupB, Bool.and_eq_true, Bool.not_eq_true'] at hnd
    by_cases h0 : k0 = k
    · subst h0
      simp only [dictGet, if_pos rfl] at h
      cases h
      show dictGet (dictUpdate (dictSet d k0 v) rest) k0 = some v
      rw [dictGet_dictUpdate_not_contains _ hnd.1, dictGet_dictSet_self]
    · simp only [dictGet, h0, if_false] at h
      exact ih _ hnd.2 h

/-!
## Rank, reachability and topological certificates
-/

theorem nodup_length_le {l m : List String} (h : l.Nodup) (hs : l ⊆ m) :
    l.length ≤ m.length := by
  have h1 : l.toFinset.card = l.length := List.toFinset_card_of_nodup h
  have h2 : l.toFinset ⊆ m.toFinset := by
    intro x hx
    simp only [List.mem_toFinset] at hx ⊢
    exact hs hx
  have h3 : m.toFinset.card ≤ m.length := m.toFinset_card_le
  have h4 : l.toFinset.card ≤ m.toFinset.card := Finset.card_le_card h2
  omega

/-- The index of the first occurrence of a node in a list (the list's length
when absent). -/
def rankIn : List String → String → Nat
  | [], _ => 0
  | x :: rest, n => if x = n then 0 else rankIn rest n + 1

theorem rankIn_lt_length {L : List String} {n : String} (h : n ∈ L) :
    rankIn L n < L.length := by
  induction L with
  | nil => cases h
  | cons x rest ih =>
    by_cases hx : x = n
    · simp [rankIn, hx]
    · have hnr : n ∈ rest := by
        rcases List.mem_cons.mp h with h1 | h1
        · exact absurd h1.symm hx
        · exact h1
      have := ih hnr
      simp only [rankIn, if_neg hx, List.length_cons]
      omega

/-- `Reach g t m`: `m` is `t` itself or a transitive ancestor of `t` along
parent edges — exactly the nodes a resolution starting at `t` can visit. -/
inductive Reach (g : Dict String (List String)) : String → String → Prop
  | refl (n : String) : Reach g n n
  | step {n m p : String} : Reach g n m → p ∈ parentsOf g m → Reach g n p

/-- `ParentSteps g a b`: at least one parent edge leads from `a` to `b`
(`b` is a strict ancestor of `a`); `ParentSteps g m m` says `m` lies on a
dependency cycle. -/
inductive ParentSteps (g : Dict String (List String)) : String → String → Prop
  | single {a p : String} : p ∈ parentsOf g a → ParentSteps g a p
  | tail {a b p : String} : ParentSteps g a b → p ∈ parentsOf g b → ParentSteps g a p

/-- A topological certificate for a target's ancestor region: a duplicate-free
list of node ids, each possessing a box, whose parents all lie in the list at
strictly smaller rank.  Such a certificate exists exactly when the region
reachable from each listed node is acyclic and fully present — the premise of
the spec's acyclic-graph properties. -/
def TopoOk (g : Dict String (List String)) (bl : Dict String BoxD) (L : List String) : Prop :=
  L.Nodup ∧ ∀ n ∈ L, dictContains bl n = true ∧
    ∀ p ∈ parentsOf g n, p ∈ L ∧ rankIn L p < rankIn L n

instance instTopoOkDecidable (g : Dict String (List String)) (bl : Dict String BoxD)
    (L : List String) : Decidable (TopoOk g bl L) := by
  unfold TopoOk; infer_instance

theorem reach_rank {g : Dict String (List String)} {bl : Dict String BoxD} {L : List String}
    (hT : TopoOk g bl L) {t m : String} (h : Reach g t m) (ht : t ∈ L) :
    m ∈ L ∧ rankIn L m ≤ rankIn L t := by
  induction h with
  | refl => exact ⟨ht, le_refl _⟩
  | step hr hp ih =>
    obtain ⟨hm, hrk⟩ := ih
    obtain ⟨hpL, hplt⟩ := ((hT.2 _ hm).2 _ hp)
    exact ⟨hpL, le_trans (le_of_lt hplt) hrk⟩

theorem reach_through {g : Dict String (List String)} {n p k : String}
    (hp : p ∈ parentsOf g n) (h : Reach g p k) : Reach g n k := by
  induction h with
  | refl => exact Reach.step (Reach.refl n) hp
  | step hr hq ih => exact Reach.step ih hq

/-- The invariant the execution cache maintains: every cached node's parents
are cached as well (so the cached region is closed under ancestry). -/
def CacheClosed {V : Type} (g : Dict String (List String)) (c : Dict String (Env V)) : Prop :=
  ∀ k, dictContains c k = true → ∀ p ∈ parentsOf g k, dictContains c p = true

theorem cacheClosed_reach {V : Type} {g : Dict String (List String)}
    {c : Dict String (Env V)} (hc : CacheClosed g c) {n k : String}
    (hn : dictContains c n = true) (h : Reach g n k) : dictContains c k = true := by
  induction h with
  | refl => exact hn
  | step hr hp ih => exact hc _ ih _ hp

/-!
## `buildGraph` and `boxLookupOf` lemmas
-/

theorem mem_dictSet {K V : Type} [DecidableEq K] {d : Dict K V} {k : K} {v : V} {e : K × V}
    (h : e ∈ dictSet d k v) : e = (k, v) ∨ e ∈ d := by
  induction d with
  | nil => simpa [dictSet] using h
  | cons hd tl ih =>
    obtain ⟨k0, v0⟩ := hd
    by_cases h0 : k0 = k
    · simp only [dictSet, if_pos h0] at h
      rcases List.mem_cons.mp h with h1 | h1
      · exact Or.inl h1
      · exact Or.inr (List.mem_cons_of_mem _ h1)
    · simp only [dictSet, if_neg h0] at h
      rcases List.mem_cons.mp h with h1 | h1
      · exact Or.inr (h1 ▸ List.mem_cons_self _ _)
      · rcases ih h1 with h2 | h2
        · exact Or.inl h2
        · exact Or.inr (List.mem_cons_of_mem _ h2)

theorem boxLookup_mem_ids {boxes : List BoxD} {k : String}
    (h : dictContains (boxLookupOf boxes) k = true) : k ∈ boxes.map BoxD.id := by
  suffices H : ∀ (bs : List BoxD) (m0 : Dict String BoxD),
      dictContains (bs.foldl (fun m b => dictSet m b.id b) m0) k = true →
      k ∈ bs.map BoxD.id ∨ dictContains m0 k = true by
    rcases H boxes [] h with h1 | h1
    · exact h1
    · simp [dictContains, dictGet] at h1
  intro bs
  induction bs with
  | nil => exact fun m0 h0 => Or.inr h0
  | cons b tl ih =>
    intro m0 h0
    rcases ih (dictSet m0 b.id b) h0 with h1 | h1
    · exact Or.inl (List.mem_cons_of_mem _ h1)
    · rw [dictContains_dictSet] at h1
      rcases Bool.or_eq_true_iff.mp h1 with h2 | h2
      · have hbk : b.id = k := of_decide_eq_true h2
        exact Or.inl (by rw [List.map_cons, hbk]; exact List.mem_cons_self _ _)
      · exact Or.inr h2

theorem boxesFold_get {boxes : List BoxD} {n : String} (h : n ∈ boxes.map BoxD.id) :
    dictGet (boxes.foldl (fun g b => dictSet g b.id ([] : List String)) []) n = some [] := by
  suffices H : ∀ (bs : List BoxD) (g0 : Dict String (List String)),
      (dictGet g0 n = some [] ∨ n ∈ bs.map BoxD.id) →
      dictGet (bs.foldl (fun g b => dictSet g b.id ([] : List String)) g0) n = some [] from
    H boxes [] (Or.inr h)
  intro bs
  induction bs with
  | nil =>
    intro g0 h0
    rcases h0 with h1 | h1
    · exact h1
    · simp at h1
  | cons b tl ih =>
    intro g0 h0
    apply ih (dictSet g0 b.id [])
    by_cases hb : b.id = n
    · exact Or.inl (by rw [dictGet_dictSet, if_pos hb])
    · rcases h0 with h1 | h1
      · exact Or.inl (by rw [dictGet_dictSet, if_neg hb]; exact h1)
      · rw [List.map_cons] at h1
        rcases List.mem_cons.mp h1 with h2 | h2
        · exact absurd h2.symm hb
        · exact Or.inr h2

theorem arrowsFold_get {n : String} {arrows : List ArrowD} :
    ∀ {g0 : Dict String (List String)} {l : List String}, dictGet g0 n = some l →
    dictGet (arrows.foldl
        (fun g a =>
          if dictContains g a.«end» then
            dictSet g a.«end» ((dictGet g a.«end»).getD [] ++ [a.start])
          else g) g0) n =
      some (l ++ (arrows.filter (fun a => a.«end» == n)).map ArrowD.start) := by
  induction arrows with
  | nil => intro g0 l h; simpa using h
  | cons a tl ih =>
    intro g0 l h
    by_cases he : a.«end» = n
    · have hc : dictContains g0 a.«end» = true := by
        rw [he]; simp [dictContains, h]
      rw [List.foldl_cons, if_pos hc]
      have hset : dictGet (dictSet g0 a.«end» ((dictGet g0 a.«end»).getD [] ++ [a.start])) n
          = some (l ++ [a.start]) := by
        rw [he] at *
        rw [dictGet_dictSet, if_pos rfl, h]
        rfl
      rw [ih hset]
      have hpa : (a.«end» == n) = true := by simp [he]
      simp [List.filter_cons, hpa, List.append_assoc]
    · have hpa : (a.«end» == n) = false := by simp [he]
      rw [List.foldl_cons]
      by_cases hc : dictContains g0 a.«end» = true
      · rw [if_pos hc]
        have hset : dictGet (dictSet g0 a.«end» ((dictGet g0 a.«end»).getD [] ++ [a.start])) n
            = some l := by
          rw [dictGet_dictSet, if_neg he]; exact h
        rw [ih hset]
        simp [List.filter_cons, hpa]
      · rw [if_neg hc, ih h]
        simp [List.filter_cons, hpa]

/-- The parent list of a node of the graph is the `start` of every arrow whose
`end` is that node, in arrow order. -/
theorem buildGraph_parents {boxes : List BoxD} {arrows : List ArrowD} {n : String}
    (h : n ∈ boxes.map BoxD.id) :
    parentsOf (buildGraph boxes arrows) n =
      (arrows.filter (fun a => a.«end» == n)).map ArrowD.start := by
  unfold parentsOf buildGraph
  rw [arrowsFold_get (boxesFold_get h)]
  rfl

theorem buildGraph_parent_mem_starts {boxes : List BoxD} {arrows : List ArrowD} :
    ∀ e ∈ buildGraph boxes arrows, ∀ p ∈ e.2, p ∈ arrows.map ArrowD.start := by
  have base : ∀ (bs : List BoxD) (g0 : Dict String (List String)),
      (∀ e ∈ g0, e.2 = ([] : List String)) →
      ∀ e ∈ bs.foldl (fun g b => dictSet g b.id ([] : List String)) g0, e.2 = [] := by
    intro bs
    induction bs with
    | nil => exact fun g0 h => h
    | cons b tl ih =>
      intro g0 h0
      apply ih (dictSet g0 b.id [])
      intro e he
      rcases mem_dictSet he with h1 | h1
      · rw [h1]
      · exact h0 _ h1
  have stepinv : ∀ (as : List ArrowD) (g0 : Dict String (List String)) (S : List String),
      (∀ e ∈ g0, ∀ p ∈ e.2, p ∈ S) → (∀ a ∈ as, a.start ∈ S) →
      ∀ e ∈ as.foldl
          (fun g a =>
            if dictContains g a.«end» then
              dictSet g a.«end» ((dictGet g a.«end»).getD [] ++ [a.start])
            else g) g0, ∀ p ∈ e.2, p ∈ S := by
    intro as
    induction as with
    | nil => exact fun g0 S h _ => h
    | cons a tl ih =>
      intro g0 S h0 hS
      apply ih _ S _ (fun a' ha' => hS a' (List.mem_cons_of_mem _ ha'))
      show ∀ e ∈ (if dictContains g0 a.«end» then
          dictSet g0 a.«end» ((dictGet g0 a.«end»).getD [] ++ [a.start]) else g0),
        ∀ p ∈ e.2, p ∈ S
      by_cases hc : dictContains g0 a.«end» = true
      · rw [if_pos hc]
        intro e he p hp
        rcases mem_dictSet he with h1 | h1
        · subst h1
          rcases List.mem_append.mp hp with h2 | h2
          · rcases hg : dictGet g0 a.«end» with _ | l
            · rw [hg] at h2; simp at h2
            · rw [hg] at h2
              exact h0 _ (mem_of_dictGet hg) _ (by simpa using h2)
          · have : p = a.start := by simpa using h2
            exact this ▸ hS a (List.mem_cons_self _ _)
        · exact h0 _ h1 _ hp
      · rw [if_neg hc]; exact h0
  intro e he p hp
  refine stepinv arrows _ (arrows.map ArrowD.start)
    (fun e' he' p' hp' => absurd hp' (by rw [base boxes [] (by simp) e' he']; simp))
    (fun a ha => List.mem_map_of_mem _ ha) e he p hp

/-!
## Unfolding lemmas for the resolver
-/

theorem not_mem_of_contains_false {l : List String} {a : String}
    (h : l.contains a = false) : a ∉ l := by
  intro hm
  have h2 : l.contains a = true := List.elem_iff.mpr hm
  rw [h] at h2
  simp at h2

theorem dictContains_eq_false_iff {K V : Type} [DecidableEq K] {d : Dict K V} {k : K} :
    dictContains d k = false ↔ dictGet d k = none := by
  unfold dictContains; cases dictGet d k <;> simp

theorem dictContains_eq_true_iff {K V : Type} [DecidableEq K] {d : Dict K V} {k : K} :
    dictContains d k = true ↔ ∃ v, dictGet d k = some v := by
  unfold dictContains; cases dictGet d k <;> simp

section Unfold

variable {V : Type} (eng : PyEngine V) (g : Dict String (List String))
  (bl : Dict String BoxD)

theorem execute_parents_nil {recur : String → DagState V → DagOut (Env V) × DagState V}
    {acc : Env V} {st : DagState V} : execute_parents recur [] acc st = (.ok acc, st) := rfl

theorem execute_parents_cons {recur : String → DagState V → DagOut (Env V) × DagState V}
    {p : String} {ps : List String} {acc : Env V} {st : DagState V} :
    execute_parents recur (p :: ps) acc st =
      match recur p st with
      | (.ok penv, st') => execute_parents recur ps (dictUpdate acc penv) st'
      | (.raise e, st') => (.raise e, st')
      | (.fuelOut, st') => (.fuelOut, st') := rfl

theorem execute_dag_node_zero {n : String} {visited : List String} {st : DagState V} :
    execute_dag_node eng g bl 0 n visited st = (.fuelOut, st) := rfl

theorem execute_dag_node_cached {fuel : Nat} {n : String} {visited : List String}
    {st : DagState V} {env : Env V} (h : dictGet st.cache n = some env) :
    execute_dag_node eng g bl (fuel + 1) n visited st = (.ok env, st) := by
  simp [execute_dag_node, h]

theorem execute_dag_node_cycle {fuel : Nat} {n : String} {visited : List String}
    {st : DagState V} (h : dictGet st.cache n = none) (hv : visited.contains n = true) :
    execute_dag_node eng g bl (fuel + 1) n visited st = (.raise (.cycleDetected n), st) := by
  have hv2 : n ∈ visited := List.elem_iff.mp hv
  simp [execute_dag_node, h, hv2]

theorem execute_dag_node_missing {fuel : Nat} {n : String} {visited : List String}
    {st : DagState V} (h : dictGet st.cache n = none) (hv : visited.contains n = false)
    (hb : dictGet bl n = none) :
    execute_dag_node eng g bl (fuel + 1) n visited st = (.raise (.notFound n), st) := by
  have hv2 : n ∉ visited := not_mem_of_contains_false hv
  simp [execute_dag_node, h, hv2, hb]

theorem execute_dag_node_go {fuel : Nat} {n : String} {visited : List String}
    {st : DagState V} {box : BoxD} (h : dictGet st.cache n = none)
    (hv : visited.contains n = false) (hb : dictGet bl n = some box) :
    execute_dag_node eng g bl (fuel + 1) n visited st =
      match execute_parents
          (fun p st' => execute_dag_node eng g bl fuel p (n :: visited) st')
          (parentsOf g n) [] st with
      | (.ok merged, st') =>
        (.ok (execute_single_box eng box.content merged),
          { cache := dictSet st'.cache n (execute_single_box eng box.content merged),
            log := st'.log ++ [n] })
      | (.raise e, st') => (.raise e, st')
      | (.fuelOut, st') => (.fuelOut, st') := by
  have hv2 : n ∉ visited := not_mem_of_contains_false hv
  simp [execute_dag_node, h, hv2, hb]

end Unfold

/-!
## Fuel sufficiency

Recursion depth is bounded: each nested call's visited set strictly grows
inside the finite universe of the start node plus all parent-list entries, so
the fuel chosen by `execute_with_dependencies` is never exhausted. -/

theorem filter_length_mono {p q : String → Bool} (U : List String)
    (h : ∀ x, q x = true → p x = true) :
    (U.filter q).length ≤ (U.filter p).length := by
  induction U with
  | nil => simp
  | cons x tl ih =>
    by_cases hq : q x = true
    · rw [List.filter_cons, List.filter_cons, if_pos hq, if_pos (h x hq)]
      simpa using ih
    · rw [List.filter_cons, if_neg hq]
      by_cases hp : p x = true
      · rw [List.filter_cons, if_pos hp]
        exact le_trans ih (by simp)
      · rw [List.filter_cons, if_neg hp]
        exact ih

theorem filter_length_strict {p q : String → Bool} {U : List String} {n : String}
    (hmono : ∀ x, q x = true → p x = true) (hn : n ∈ U) (hqn : q n = false)
    (hpn : p n = true) : (U.filter q).length < (U.filter p).length := by
  induction U with
  | nil => cases hn
  | cons x tl ih =>
    by_cases hx : x = n
    · subst hx
      rw [List.filter_cons, List.filter_cons, if_neg (by simp [hqn]), if_pos hpn]
      have := filter_length_mono tl hmono
      simp only [List.length_cons]
      omega
    · have hn' : n ∈ tl := by
        rcases List.mem_cons.mp hn with h1 | h1
        · exact absurd h1.symm hx
        · exact h1
      have hlt := ih hn'
      by_cases hq : q x = true
      · rw [List.filter_cons, List.filter_cons, if_pos hq, if_pos (hmono x hq)]
        simp only [List.length_cons]
        omega
      · rw [List.filter_cons, if_neg hq]
        by_cases hp : p x = true
        · rw [List.filter_cons, if_pos hp]
          exact lt_of_lt_of_le hlt (by simp)
        · rw [List.filter_cons, if_neg hp]
          exact hlt

theorem parents_no_fuelOut {V : Type}
    {recur : String → DagState V → DagOut (Env V) × DagState V} (ps : List String)
    (hrec : ∀ p ∈ ps, ∀ st : DagState V, (recur p st).1 ≠ .fuelOut) :
    ∀ acc st, (execute_parents recur ps acc st).1 ≠ DagOut.fuelOut := by
  induction ps with
  | nil => intro acc st h; simp [execute_parents_nil] at h
  | cons p ps ih =>
    intro acc st
    rcases hpst : recur p st with ⟨r1, st'⟩
    rw [execute_parents_cons, hpst]
    cases r1 with
    | ok penv => exact ih (fun q hq => hrec q (List.mem_cons_of_mem _ hq)) _ _
    | raise e => simp
    | fuelOut =>
      have := hrec p (List.mem_cons_self _ _) st
      rw [hpst] at this
      exact absurd rfl this

theorem dag_no_fuelOut {V : Type} (eng : PyEngine V) (g : Dict String (List String))
    (bl : Dict String BoxD) (U : List String)
    (hU : ∀ e ∈ g, ∀ p ∈ e.2, p ∈ U) :
    ∀ fuel n visited st, n ∈ U →
      (U.filter (fun x => !(visited.contains x))).length < fuel →
      (execute_dag_node eng g bl fuel n visited st).1 ≠ DagOut.fuelOut := by
  intro fuel
  induction fuel with
  | zero => intro n visited st _ hlen; exact absurd hlen (Nat.not_lt_zero _)
  | succ fuel ih =>
    intro n visited st hn hlen
    rcases hc : dictGet st.cache n with _ | env
    · by_cases hv : visited.contains n = true
      · rw [execute_dag_node_cycle eng g bl hc hv]; simp
      · have hv' : visited.contains n = false := by
          cases h : visited.contains n
          · rfl
          · exact absurd h hv
        rcases hb : dictGet bl n with _ | box
        · rw [execute_dag_node_missing eng g bl hc hv' hb]; simp
        · rw [execute_dag_node_go eng g bl hc hv' hb]
          have hdec :
              ((U.filter (fun x => !((n :: visited).contains x))).length) <
                (U.filter (fun x => !(visited.contains x))).length := by
            refine filter_length_strict ?_ hn ?_ ?_
            · intro x hx
              show (!(visited.contains x)) = true
              have hx' : (!((n :: visited).contains x)) = true := hx
              simp only [Bool.not_eq_true', List.contains_cons, Bool.or_eq_false_iff] at hx'
              rw [hx'.2]
              rfl
            · show (!((n :: visited).contains n)) = false
              rw [List.contains_cons]
              simp
            · show (!(visited.contains n)) = true
              rw [hv']
              rfl
          have hrec : ∀ p ∈ parentsOf g n, ∀ st' : DagState V,
              (execute_dag_node eng g bl fuel p (n :: visited) st').1 ≠ .fuelOut := by
            intro p hp st'
            have hpU : p ∈ U := by
              unfold parentsOf at hp
              rcases hg : dictGet g n with _ | ps
              · rw [hg] at hp; simp at hp
              · rw [hg] at hp
                exact hU _ (mem_of_dictGet hg) _ (by simpa using hp)
            exact ih p (n :: visited) st' hpU (by omega)
          rcases hf : execute_parents
              (fun p st' => execute_dag_node eng g bl fuel p (n :: visited) st')
              (parentsOf g n) [] st with ⟨fr, st'⟩
          cases fr with
          | ok merged => simp
          | raise e => simp
          | fuelOut =>
            have := parents_no_fuelOut (parentsOf g n) hrec [] st
            rw [hf] at this
            exact absurd rfl this
    · rw [execute_dag_node_cached eng g bl hc]; simp

/-!
## The resolver never raises "not found" when all parents have boxes
-/

/-- Every id in some parent list of the graph has a box. -/
def ParentsFound (g : Dict String (List String)) (bl : Dict String BoxD) : Prop :=
  ∀ e ∈ g, ∀ p ∈ e.2, dictContains bl p = true

instance instParentsFoundDecidable (g : Dict String (List String)) (bl : Dict String BoxD) :
    Decidable (ParentsFound g bl) := by
  unfold ParentsFound; infer_instance

theorem parents_no_notFound {V : Type}
    {recur : String → DagState V → DagOut (Env V) × DagState V} (ps : List String)
    (hrec : ∀ p ∈ ps, ∀ st : DagState V, ∀ m, (recur p st).1 ≠ .raise (.notFound m)) :
    ∀ acc st m, (execute_parents recur ps acc st).1 ≠ DagOut.raise (.notFound m) := by
  induction ps with
  | nil => intro acc st m h; simp [execute_parents_nil] at h
  | cons p ps ih =>
    intro acc st m
    rcases hpst : recur p st with ⟨r1, st'⟩
    rw [execute_parents_cons, hpst]
    cases r1 with
    | ok penv => exact ih (fun q hq => hrec q (List.mem_cons_of_mem _ hq)) _ _ _
    | raise e =>
      intro h
      have he : e = .notFound m := by simpa using h
      have := hrec p (List.mem_cons_self _ _) st m
      rw [hpst, he] at this
      exact absurd rfl this
    | fuelOut => simp

theorem dag_no_notFound {V : Type} (eng : PyEngine V) (g : Dict String (List String))
    (bl : Dict String BoxD) (hPF : ParentsFound g bl) :
    ∀ fuel n visited st, dictContains bl n = true →
      ∀ m, (execute_dag_node eng g bl fuel n visited st).1 ≠ DagOut.raise (.notFound m) := by
  intro fuel
  induction fuel with
  | zero => intro n visited st _ m; simp [execute_dag_node_zero]
  | succ fuel ih =>
    intro n visited st hbln m
    rcases hc : dictGet st.cache n with _ | env
    · by_cases hv : visited.contains n = true
      · rw [execute_dag_node_cycle eng g bl hc hv]; simp
      · have hv' : visited.contains n = false := by
          cases h : visited.contains n
          · rfl
          · exact absurd h hv
        rcases hb : dictGet bl n with _ | box
        · rw [dictContains_eq_false_iff.mpr hb] at hbln; cases hbln
        · rw [execute_dag_node_go eng g bl hc hv' hb]
          have hrec : ∀ p ∈ parentsOf g n, ∀ st' : DagState V, ∀ m',
              (execute_dag_node eng g bl fuel p (n :: visited) st').1 ≠
                .raise (.notFound m') := by
            intro p hp st' m'
            have hpbl : dictContains bl p = true := by
              unfold parentsOf at hp
              rcases hg : dictGet g n with _ | ps
              · rw [hg] at hp; simp at hp
              · rw [hg] at hp
                exact hPF _ (mem_of_dictGet hg) _ (by simpa using hp)
            exact ih p (n :: visited) st' hpbl m'
          rcases hf : execute_parents
              (fun p st' => execute_dag_node eng g bl fuel p (n :: visited) st')
              (parentsOf g n) [] st with ⟨fr, st'⟩
          cases fr with
          | ok merged => simp
          | raise e =>
            intro h
            have he : e = .notFound m := by simpa using h
            have := parents_no_notFound (parentsOf g n) hrec [] st m
            rw [hf, he] at this
            exact absurd rfl this
          | fuelOut => simp
    · rw [execute_dag_node_cached eng g bl hc]; simp

/-!
## Cycle behaviour

A set of nodes each of which has a parent inside the set can never be
resolved successfully: no node of the set ever enters the cache, and
resolving any of them cannot return an environment.  Moreover, every
cycle-detected exception names a node that lies on a dependency cycle. -/

theorem parents_cycle_inv {V : Type}
    {recur : String → DagState V → DagOut (Env V) × DagState V} {c : List String}
    (ps : List String)
    (hrec : ∀ p ∈ ps, ∀ st : DagState V, (∀ x ∈ c, dictContains st.cache x = false) →
      (∀ x ∈ c, dictContains ((recur p st).2).cache x = false) ∧
      (p ∈ c → ∀ env, (recur p st).1 ≠ .ok env)) :
    ∀ acc st, (∀ x ∈ c, dictContains st.cache x = false) →
      (∀ x ∈ c, dictContains ((execute_parents recur ps acc st).2).cache x = false) ∧
      ((∃ p ∈ ps, p ∈ c) → ∀ env, (execute_parents recur ps acc st).1 ≠ .ok env) := by
  induction ps with
  | nil =>
    intro acc st hinv
    refine ⟨by simpa [execute_parents_nil] using hinv, ?_⟩
    rintro ⟨p, hp, _⟩
    simp at hp
  | cons p ps ih =>
    intro acc st hinv
    rcases hpst : recur p st with ⟨r1, st'⟩
    have hp1 := hrec p (List.mem_cons_self _ _) st hinv
    rw [hpst] at hp1
    cases r1 with
    | ok penv =>
      have hpnc : p ∉ c := by
        intro hpc
        exact absurd rfl (hp1.2 hpc penv)
      have := ih (fun q hq => hrec q (List.mem_cons_of_mem _ hq)) (dictUpdate acc penv) st' hp1.1
      rw [execute_parents_cons, hpst]
      refine ⟨this.1, ?_⟩
      rintro ⟨q, hq, hqc⟩
      rcases List.mem_cons.mp hq with h1 | h1
      · exact absurd (h1 ▸ hqc) hpnc
      · exact this.2 ⟨q, h1, hqc⟩
    | raise e =>
      rw [execute_parents_cons, hpst]
      exact ⟨hp1.1, fun _ env => by simp⟩
    | fuelOut =>
      rw [execute_parents_cons, hpst]
      exact ⟨hp1.1, fun _ env => by simp⟩

theorem dag_cycle_no_ok {V : Type} (eng : PyEngine V) (g : Dict String (List String))
    (bl : Dict String BoxD) {c : List String}
    (hc : ∀ x ∈ c, ∃ p ∈ parentsOf g x, p ∈ c) :
    ∀ fuel n visited st, (∀ x ∈ c, dictContains st.cache x = false) →
      (∀ x ∈ c, dictContains ((execute_dag_node eng g bl fuel n visited st).2).cache x = false) ∧
      (n ∈ c → ∀ env, (execute_dag_node eng g bl fuel n visited st).1 ≠ .ok env) := by
  intro fuel
  induction fuel with
  | zero =>
    intro n visited st hinv
    rw [execute_dag_node_zero]
    exact ⟨hinv, fun _ env => by simp⟩
  | succ fuel ih =>
    intro n visited st hinv
    rcases hcget : dictGet st.cache n with _ | env
    · by_cases hv : visited.contains n = true
      · rw [execute_dag_node_cycle eng g bl hcget hv]
        exact ⟨hinv, fun _ env => by simp⟩
      · have hv' : visited.contains n = false := by
          cases h : visited.contains n
          · rfl
          · exact absurd h hv
        rcases hb : dictGet bl n with _ | box
        · rw [execute_dag_node_missing eng g bl hcget hv' hb]
          exact ⟨hinv, fun _ env => by simp⟩
        · rw [execute_dag_node_go eng g bl hcget hv' hb]
          have hfold := parents_cycle_inv (parentsOf g n)
            (fun p _ st' hinv' => ih p (n :: visited) st' hinv') [] st hinv
          rcases hf : execute_parents
              (fun p st' => execute_dag_node eng g bl fuel p (n :: visited) st')
              (parentsOf g n) [] st with ⟨fr, st'⟩
          rw [hf] at hfold
          cases fr with
          | ok merged =>
            have hnc : n ∉ c := by
              intro hnc
              obtain ⟨p, hp, hpc⟩ := hc n hnc
              exact absurd rfl (hfold.2 ⟨p, hp, hpc⟩ merged)
            refine ⟨?_, fun hn _ => absurd hn hnc⟩
            intro x hx
            have hxn : n ≠ x := fun h => hnc (h ▸ hx)
            rw [dictContains_dictSet]
            simp only [hfold.1 x hx, Bool.or_false]
            simpa using hxn
          | raise e => exact ⟨hfold.1, fun _ env => by simp⟩
          | fuelOut => exact ⟨hfold.1, fun _ env => by simp⟩
    · rw [execute_dag_node_cached eng g bl hcget]
      refine ⟨hinv, ?_⟩
      intro hn
      have := hinv n hn
      rw [dictContains_eq_false_iff] at this
      rw [hcget] at this
      cases this

theorem parents_raise_path {V : Type}
    {recur : String → DagState V → DagOut (Env V) × DagState V} {P : String → Prop}
    (ps : List String)
    (hrec : ∀ p ∈ ps, ∀ st : DagState V, ∀ m,
      (recur p st).1 = .raise (.cycleDetected m) → P m) :
    ∀ acc st m, (execute_parents recur ps acc st).1 = .raise (.cycleDetected m) → P m := by
  induction ps with
  | nil => intro acc st m h; simp [execute_parents_nil] at h
  | cons p ps ih =>
    intro acc st m
    rcases hpst : recur p st with ⟨r1, st'⟩
    rw [execute_parents_cons, hpst]
    cases r1 with
    | ok penv => exact ih (fun q hq => hrec q (List.mem_cons_of_mem _ hq)) _ _ _
    | raise e =>
      intro h
      have he : e = .cycleDetected m := by simpa using h
      have := hrec p (List.mem_cons_self _ _) st m
      rw [hpst, he] at this
      exact this rfl
    | fuelOut => simp

theorem dag_cycle_raise_path {V : Type} (eng : PyEngine V) (g : Dict String (List String))
    (bl : Dict String BoxD) :
    ∀ fuel n visited st, (∀ v ∈ visited, ParentSteps g v n) →
      ∀ m, (execute_dag_node eng g bl fuel n visited st).1 = .raise (.cycleDetected m) →
        ParentSteps g m m := by
  intro fuel
  induction fuel with
  | zero => intro n visited st _ m; rw [execute_dag_node_zero]; simp
  | succ fuel ih =>
    intro n visited st hvis m
    rcases hcget : dictGet st.cache n with _ | env
    · by_cases hv : visited.contains n = true
      · rw [execute_dag_node_cycle eng g bl hcget hv]
        intro h
        have hm : n = m := by simpa using h
        exact hm ▸ hvis n (List.elem_iff.mp hv)
      · have hv' : visited.contains n = false := by
          cases h : visited.contains n
          · rfl
          · exact absurd h hv
        rcases hb : dictGet bl n with _ | box
        · rw [execute_dag_node_missing eng g bl hcget hv' hb]; simp
        · rw [execute_dag_node_go eng g bl hcget hv' hb]
          have hrec : ∀ p ∈ parentsOf g n, ∀ st' : DagState V, ∀ m',
              (execute_dag_node eng g bl fuel p (n :: visited) st').1 =
                .raise (.cycleDetected m') → ParentSteps g m' m' := by
            intro p hp st' m' hraise
            refine ih p (n :: visited) st' ?_ m' hraise
            intro v hvmem
            rcases List.mem_cons.mp hvmem with h1 | h1
            · exact h1 ▸ ParentSteps.single hp
            · exact ParentSteps.tail (hvis v h1) hp
          rcases hf : execute_parents
              (fun p st' => execute_dag_node eng g bl fuel p (n :: visited) st')
              (parentsOf g n) [] st with ⟨fr, st'⟩
          cases fr with
          | ok merged => simp
          | raise e =>
            intro h
            have he : e = .cycleDetected m := by simpa using h
            have := parents_raise_path (parentsOf g n) hrec [] st m
            rw [hf, he] at this
            exact this rfl
          | fuelOut => simp
    · rw [execute_dag_node_cached eng g bl hcget]; simp

/-!
## Ancestor evaluation failure is invisible to the resolver

`_execute_single_box` swallows evaluation failures, so the resolver behaves
identically on an engine and on its failure-free variant. -/

/-- The same engine with every evaluation failure suppressed. -/
def silenceFailures {V : Type} (eng : PyEngine V) : PyEngine V :=
  { eng with run := fun c e => { eng.run c e with raised := none } }

theorem execute_single_box_silence {V : Type} (eng : PyEngine V) (code : String)
    (env : Env V) :
    execute_single_box (silenceFailures eng) code env = execute_single_box eng code env := rfl

theorem execute_parents_congr {V : Type}
    {recur1 recur2 : String → DagState V → DagOut (Env V) × DagState V}
    (h : ∀ p st, recur1 p st = recur2 p st) :
    ∀ ps acc st, execute_parents recur1 ps acc st = execute_parents recur2 ps acc st := by
  intro ps
  induction ps with
  | nil => intro acc st; rfl
  | cons p ps ih =>
    intro acc st
    rw [execute_parents_cons, execute_parents_cons, h p st]
    rcases hr : recur2 p st with ⟨r1, st'⟩
    cases r1 with
    | ok penv => exact ih _ _
    | raise e => rfl
    | fuelOut => rfl

theorem execute_dag_node_silence {V : Type} (eng : PyEngine V)
    (g : Dict String (List String)) (bl : Dict String BoxD) :
    ∀ fuel n visited st,
      execute_dag_node (silenceFailures eng) g bl fuel n visited st =
        execute_dag_node eng g bl fuel n visited st := by
  intro fuel
  induction fuel with
  | zero => intro n visited st; rfl
  | succ fuel ih =>
    intro n visited st
    rcases hcget : dictGet st.cache n with _ | env
    · by_cases hv : visited.contains n = true
      · rw [execute_dag_node_cycle _ g bl hcget hv, execute_dag_node_cycle eng g bl hcget hv]
      · have hv' : visited.contains n = false := by
          cases h : visited.contains n
          · rfl
          · exact absurd h hv
        rcases hb : dictGet bl n with _ | box
        · rw [execute_dag_node_missing _ g bl hcget hv' hb,
            execute_dag_node_missing eng g bl hcget hv' hb]
        · rw [execute_dag_node_go _ g bl hcget hv' hb,
            execute_dag_node_go eng g bl hcget hv' hb]
          rw [execute_parents_congr (fun p st' => ih p (n :: visited) st')]
          rcases hf : execute_parents
              (fun p st' => execute_dag_node eng g bl fuel p (n :: visited) st')
              (parentsOf g n) [] st with ⟨fr, st'⟩
          cases fr with
          | ok merged => simp only [execute_single_box_silence]
          | raise e => rfl
          | fuelOut => rfl
    · rw [execute_dag_node_cached _ g bl hcget, execute_dag_node_cached eng g bl hcget]

/-!
## DFS correctness on an acyclic, fully-present region

`DagStep g R st st'` relates the resolver state before and after a call whose
newly cached nodes all satisfy `R`: previously cached environments are
preserved verbatim, every new cache entry satisfies `R`, and the log grows by
exactly the newly cached node ids, each once. -/

structure DagStep {V : Type} (g : Dict String (List String)) (R : String → Prop)
    (st st' : DagState V) : Prop where
  pres : ∀ k, dictContains st.cache k = true → dictGet st'.cache k = dictGet st.cache k
  bound : ∀ k, dictContains st'.cache k = true → dictContains st.cache k = true ∨ R k
  log : ∃ newLog, st'.log = st.log ++ newLog ∧ newLog.Nodup ∧
    ∀ m, (m ∈ newLog ↔ (dictContains st'.cache m = true ∧ dictContains st.cache m = false))

theorem dagStep_self {V : Type} {g : Dict String (List String)} {R : String → Prop}
    {st : DagState V} : DagStep g R st st := by
  refine ⟨fun k _ => rfl, fun k h => Or.inl h, [], by simp, by simp, ?_⟩
  intro m
  constructor
  · intro h; cases h
  · rintro ⟨h1, h2⟩
    rw [h1] at h2
    cases h2

theorem dagStep_contains_mono {V : Type} {g : Dict String (List String)} {R : String → Prop}
    {st st' : DagState V} (h : DagStep g R st st') {k : String}
    (hk : dictContains st.cache k = true) : dictContains st'.cache k = true := by
  unfold dictContains at hk ⊢
  rw [h.pres k hk]
  exact hk

theorem dagStep_mono {V : Type} {g : Dict String (List String)} {R R' : String → Prop}
    {st st' : DagState V} (hR : ∀ k, R k → R' k) (h : DagStep g R st st') :
    DagStep g R' st st' := by
  refine ⟨h.pres, fun k hk => ?_, h.log⟩
  rcases h.bound k hk with h1 | h1
  · exact Or.inl h1
  · exact Or.inr (hR k h1)

theorem dagStep_trans {V : Type} {g : Dict String (List String)} {R R' : String → Prop}
    {st st1 st2 : DagState V} (h1 : DagStep g R st st1) (h2 : DagStep g R' st1 st2) :
    DagStep g (fun k => R k ∨ R' k) st st2 := by
  refine ⟨?_, ?_, ?_⟩
  · intro k hk
    rw [h2.pres k (dagStep_contains_mono h1 hk), h1.pres k hk]
  · intro k hk
    rcases h2.bound k hk with hk1 | hk1
    · rcases h1.bound k hk1 with hk2 | hk2
      · exact Or.inl hk2
      · exact Or.inr (Or.inl hk2)
    · exact Or.inr (Or.inr hk1)
  · obtain ⟨n1, hl1, hnd1, hiff1⟩ := h1.log
    obtain ⟨n2, hl2, hnd2, hiff2⟩ := h2.log
    refine ⟨n1 ++ n2, by rw [hl2, hl1, List.append_assoc], ?_, ?_⟩
    · rw [List.nodup_append]
      refine ⟨hnd1, hnd2, ?_⟩
      intro a ha1 ha2
      have hc1 : dictContains st1.cache a = true := ((hiff1 a).mp ha1).1
      have hc2 : dictContains st1.cache a = false := ((hiff2 a).mp ha2).2
      rw [hc1] at hc2
      cases hc2
    · intro m
      constructor
      · intro hm
        rcases List.mem_append.mp hm with hm1 | hm1
        · obtain ⟨hc1, hc0⟩ := (hiff1 m).mp hm1
          exact ⟨dagStep_contains_mono h2 hc1, hc0⟩
        · obtain ⟨hc2, hc1⟩ := (hiff2 m).mp hm1
          refine ⟨hc2, ?_⟩
          cases hc0 : dictContains st.cache m
          · rfl
          · rw [dagStep_contains_mono h1 hc0] at hc1
            cases hc1
      · rintro ⟨hc2, hc0⟩
        cases hc1 : dictContains st1.cache m
        · exact List.mem_append.mpr (Or.inr ((hiff2 m).mpr ⟨hc2, hc1⟩))
        · exact List.mem_append.mpr (Or.inl ((hiff1 m).mpr ⟨hc1, hc0⟩))

section DagSpec

variable {V : Type} (eng : PyEngine V) (g : Dict String (List String))
  (bl : Dict String BoxD) {L : List String}

theorem parents_spec {recur : String → DagState V → DagOut (Env V) × DagState V}
    (ps : List String)
    (hrec : ∀ p ∈ ps, ∀ st : DagState V, CacheClosed g st.cache →
      ∃ env st', recur p st = (.ok env, st') ∧ DagStep g (Reach g p) st st' ∧
        CacheClosed g st'.cache ∧ dictGet st'.cache p = some env) :
    ∀ acc st, CacheClosed g st.cache →
      ∃ merged st', execute_parents recur ps acc st = (.ok merged, st') ∧
        DagStep g (fun k => ∃ p ∈ ps, Reach g p k) st st' ∧
        CacheClosed g st'.cache ∧
        (∀ p ∈ ps, dictContains st'.cache p = true) := by
  induction ps with
  | nil =>
    intro acc st hcl
    exact ⟨acc, st, execute_parents_nil, dagStep_self, hcl, by simp⟩
  | cons p ps ih =>
    intro acc st hcl
    obtain ⟨env1, st1, heq1, step1, hcl1, hget1⟩ :=
      hrec p (List.mem_cons_self _ _) st hcl
    obtain ⟨merged, st2, heq2, step2, hcl2, hall2⟩ :=
      ih (fun q hq => hrec q (List.mem_cons_of_mem _ hq)) (dictUpdate acc env1) st1 hcl1
    refine ⟨merged, st2, ?_, ?_, hcl2, ?_⟩
    · rw [execute_parents_cons, heq1]
      exact heq2
    · refine dagStep_mono ?_ (dagStep_trans step1 step2)
      intro k hk
      rcases hk with hk | ⟨q, hq, hk⟩
      · exact ⟨p, List.mem_cons_self _ _, hk⟩
      · exact ⟨q, List.mem_cons_of_mem _ hq, hk⟩
    · intro q hq
      rcases List.mem_cons.mp hq with h1 | h1
      · subst h1
        have : dictContains st1.cache q = true := by
          unfold dictContains
          rw [hget1]
          rfl
        exact dagStep_contains_mono step2 this
      · exact hall2 q h1

theorem dag_spec (hT : TopoOk g bl L) :
    ∀ fuel n visited st, n ∈ L → rankIn L n < fuel →
      (∀ v ∈ visited, v ∈ L → rankIn L n < rankIn L v) →
      CacheClosed g st.cache →
      ∃ env st',
        execute_dag_node eng g bl fuel n visited st = (.ok env, st') ∧
        DagStep g (Reach g n) st st' ∧
        CacheClosed g st'.cache ∧
        dictGet st'.cache n = some env := by
  intro fuel
  induction fuel with
  | zero => intro n visited st _ hrk; exact absurd hrk (Nat.not_lt_zero _)
  | succ fuel ih =>
    intro n visited st hnL hrk hvis hcl
    rcases hcget : dictGet st.cache n with _ | env
    · have hv' : visited.contains n = false := by
        cases h : visited.contains n
        · rfl
        · have hmem := List.elem_iff.mp h
          have := hvis n hmem hnL
          omega
      rcases hb : dictGet bl n with _ | box
      · have := (hT.2 n hnL).1
        rw [dictContains_eq_false_iff.mpr hb] at this
        cases this
      · have hrec : ∀ p ∈ parentsOf g n, ∀ st0 : DagState V, CacheClosed g st0.cache →
            ∃ env0 st0',
              execute_dag_node eng g bl fuel p (n :: visited) st0 = (.ok env0, st0') ∧
              DagStep g (Reach g p) st0 st0' ∧
              CacheClosed g st0'.cache ∧ dictGet st0'.cache p = some env0 := by
          intro p hp st0 hcl0
          obtain ⟨hpL, hplt⟩ := (hT.2 n hnL).2 p hp
          refine ih p (n :: visited) st0 hpL (by omega) ?_ hcl0
          intro v hv hvL
          rcases List.mem_cons.mp hv with h1 | h1
          · subst h1; omega
          · have := hvis v h1 hvL
            omega
        obtain ⟨merged, st', heq, stepF, hclF, hallF⟩ :=
          parents_spec g (parentsOf g n) hrec [] st hcl
        have hstn : dictContains st.cache n = false := dictContains_eq_false_iff.mpr hcget
        have hnotin : dictContains st'.cache n = false := by
          cases h : dictContains st'.cache n
          · rfl
          · rcases stepF.bound n h with h1 | ⟨p, hp, hreach⟩
            · rw [hstn] at h1; cases h1
            · obtain ⟨hpL, hplt⟩ := (hT.2 n hnL).2 p hp
              obtain ⟨hnL2, hle⟩ := reach_rank hT hreach hpL
              omega
        refine ⟨execute_single_box eng box.content merged,
          { cache := dictSet st'.cache n (execute_single_box eng box.content merged),
            log := st'.log ++ [n] }, ?_, ?_, ?_, ?_⟩
        · rw [execute_dag_node_go eng g bl hcget hv' hb, heq]
        · refine ⟨?_, ?_, ?_⟩
          · intro k hk
            have hkn : n ≠ k := by
              intro h
              rw [← h, hstn] at hk
              cases hk
            show dictGet (dictSet st'.cache n _) k = dictGet st.cache k
            rw [dictGet_dictSet_ne _ _ hkn]
            exact stepF.pres k hk
          · intro k hk
            rw [show ({ cache := dictSet st'.cache n (execute_single_box eng
                box.content merged), log := st'.log ++ [n] } : DagState V).cache
                = dictSet st'.cache n (execute_single_box eng box.content merged) from rfl,
              dictContains_dictSet] at hk
            rcases Bool.or_eq_true_iff.mp hk with h1 | h1
            · have : n = k := of_decide_eq_true h1
              exact Or.inr (this ▸ Reach.refl n)
            · rcases stepF.bound k h1 with h2 | ⟨p, hp, hreach⟩
              · exact Or.inl h2
              · exact Or.inr (reach_through hp hreach)
          · obtain ⟨newF, hlF, hndF, hiffF⟩ := stepF.log
            refine ⟨newF ++ [n], ?_, ?_, ?_⟩
            · show st'.log ++ [n] = st.log ++ (newF ++ [n])
              rw [hlF, List.append_assoc]
            · rw [List.nodup_append]
              refine ⟨hndF, List.nodup_singleton _, ?_⟩
              intro a ha1 ha2
              have ha : a = n := by simpa using ha2
              have := ((hiffF a).mp ha1).1
              rw [ha, hnotin] at this
              cases this
            · intro m
              constructor
              · intro hm
                rcases List.mem_append.mp hm with hm1 | hm1
                · obtain ⟨hc1, hc0⟩ := (hiffF m).mp hm1
                  exact ⟨by
                    show dictContains (dictSet st'.cache n _) m = true
                    exact dictContains_dictSet_of _ _ hc1, hc0⟩
                · have hmn : m = n := by simpa using hm1
                  subst hmn
                  refine ⟨?_, hstn⟩
                  show dictContains (dictSet st'.cache m _) m = true
                  unfold dictContains
                  rw [dictGet_dictSet_self]
                  rfl
              · rintro ⟨hc1, hc0⟩
                have hc1' : dictContains (dictSet st'.cache n
                    (execute_single_box eng box.content merged)) m = true := hc1
                rw [dictContains_dictSet] at hc1'
                rcases Bool.or_eq_true_iff.mp hc1' with h1 | h1
                · have : n = m := of_decide_eq_true h1
                  exact List.mem_append.mpr (Or.inr (by simp [this]))
                · exact List.mem_append.mpr (Or.inl ((hiffF m).mpr ⟨h1, hc0⟩))
        · intro k hk p hp
          have hk' : dictContains (dictSet st'.cache n
              (execute_single_box eng box.content merged)) k = true := hk
          rw [dictContains_dictSet] at hk'
          show dictContains (dictSet st'.cache n _) p = true
          rcases Bool.or_eq_true_iff.mp hk' with h1 | h1
          · have hnk : n = k := of_decide_eq_true h1
            subst hnk
            exact dictContains_dictSet_of _ _ (hallF p hp)
          · exact dictContains_dictSet_of _ _ (hclF k h1 p hp)
        · show dictGet (dictSet st'.cache n _) n = some _
          rw [dictGet_dictSet_self]
    · refine ⟨env, st, execute_dag_node_cached eng g bl hcget, dagStep_self, hcl, hcget⟩

end DagSpec

/-!
## Top-level assembly
-/

section TopLevel

variable {V : Type}

theorem execute_with_dependencies_eq (eng : PyEngine V) (self : CodeExecutor V)
    (box_id code : String) (boxes : List BoxD) (arrows : List ArrowD) {tbox : BoxD}
    (hfind : boxes.find? (fun box => box.id == box_id) = some tbox) :
    execute_with_dependencies eng self box_id code boxes arrows =
      match execute_dag_node eng (buildGraph boxes arrows) (boxLookupOf boxes)
          (fuelFor boxes arrows) box_id [] { cache := [], log := [] } with
      | (.ok env, st) =>
        (execute_box_code eng tbox.content env,
          { execution_cache := st.cache }, st.log ++ [box_id])
      | (.raise e, st) =>
        ({ output := .text (errText e), error := true },
          { execution_cache := st.cache }, st.log)
      | (.fuelOut, st) =>
        ({ output := .text "RecursionError: maximum recursion depth exceeded", error := true },
          { execution_cache := st.cache }, st.log) := by
  unfold execute_with_dependencies
  rw [hfind]
  rfl

theorem topo_length_le {boxes : List BoxD} {arrows : List ArrowD} {L : List String}
    (hT : TopoOk (buildGraph boxes arrows) (boxLookupOf boxes) L) :
    L.length ≤ boxes.length := by
  have hsub : L ⊆ boxes.map BoxD.id := fun n hn => boxLookup_mem_ids (hT.2 n hn).1
  have := nodup_length_le hT.1 hsub
  rw [List.length_map] at this
  exact this

/-- A successful top-level resolution on a topologically certified region:
the DAG phase returns an environment, the final state caches exactly the
reachable nodes, and the log enumerates each reachable node exactly once. -/
theorem dag_top_spec (eng : PyEngine V) (boxes : List BoxD) (arrows : List ArrowD)
    {L : List String} (hT : TopoOk (buildGraph boxes arrows) (boxLookupOf boxes) L)
    {n : String} (hn : n ∈ L) :
    ∃ env st',
      execute_dag_node eng (buildGraph boxes arrows) (boxLookupOf boxes)
        (fuelFor boxes arrows) n [] { cache := [], log := [] } = (.ok env, st') ∧
      st'.log.Nodup ∧
      (∀ m, m ∈ st'.log ↔ Reach (buildGraph boxes arrows) n m) ∧
      dictGet st'.cache n = some env := by
  have hrk : rankIn L n < fuelFor boxes arrows := by
    have h1 := rankIn_lt_length hn
    have h2 := topo_length_le hT
    unfold fuelFor
    omega
  have hcl : CacheClosed (buildGraph boxes arrows)
      (({ cache := [], log := [] } : DagState V).cache) := by
    intro k hk
    cases hk
  obtain ⟨env, st', heq, step, hcl', hget⟩ :=
    dag_spec eng (buildGraph boxes arrows) (boxLookupOf boxes) hT
      (fuelFor boxes arrows) n [] { cache := [], log := [] } hn hrk (by simp) hcl
  obtain ⟨newLog, hlog, hnd, hiff⟩ := step.log
  have hlog' : st'.log = newLog := by simpa using hlog
  have hcontains : ∀ m, dictContains st'.cache m = true ↔
      Reach (buildGraph boxes arrows) n m := by
    intro m
    constructor
    · intro hm
      rcases step.bound m hm with h1 | h1
      · cases h1
      · exact h1
    · intro hm
      exact cacheClosed_reach hcl' (by unfold dictContains; rw [hget]; rfl) hm
  refine ⟨env, st', heq, hlog' ▸ hnd, ?_, hget⟩
  intro m
  rw [hlog']
  rw [hiff m]
  constructor
  · rintro ⟨h1, _⟩
    exact (hcontains m).mp h1
  · intro hm
    exact ⟨(hcontains m).mpr hm, rfl⟩

/-- A top-level resolution of a node inside a parent-closed node set (for
example the nodes of an edge cycle) raises a cycle-detected error naming a
node that lies on a dependency cycle, provided every parent id has a box. -/
theorem dag_top_cycle (eng : PyEngine V) (boxes : List BoxD) (arrows : List ArrowD)
    {c : List String}
    (hcyc : ∀ x ∈ c, ∃ p ∈ parentsOf (buildGraph boxes arrows) x, p ∈ c)
    (hPF : ParentsFound (buildGraph boxes arrows) (boxLookupOf boxes))
    {n : String} (hn : n ∈ c) (hbl : dictContains (boxLookupOf boxes) n = true) :
    ∃ m st',
      execute_dag_node eng (buildGraph boxes arrows) (boxLookupOf boxes)
        (fuelFor boxes arrows) n [] ({ cache := [], log := [] } : DagState V) =
        (.raise (.cycleDetected m), st') ∧
      ParentSteps (buildGraph boxes arrows) m m := by
  rcases hr : execute_dag_node eng (buildGraph boxes arrows) (boxLookupOf boxes)
      (fuelFor boxes arrows) n [] ({ cache := [], log := [] } : DagState V) with ⟨r1, st'⟩
  have hNoFuel : r1 ≠ .fuelOut := by
    have hU : ∀ e ∈ buildGraph boxes arrows, ∀ p ∈ e.2,
        p ∈ n :: arrows.map ArrowD.start := by
      intro e he p hp
      exact List.mem_cons_of_mem _ (buildGraph_parent_mem_starts e he p hp)
    have hlen : ((n :: arrows.map ArrowD.start).filter
        (fun x => !(([] : List String).contains x))).length < fuelFor boxes arrows := by
      have h1 := List.length_filter_le (fun x => !(([] : List String).contains x))
        (n :: arrows.map ArrowD.start)
      have h2 : (n :: arrows.map ArrowD.start).length = arrows.length + 1 := by
        simp
      unfold fuelFor
      omega
    have := dag_no_fuelOut eng (buildGraph boxes arrows) (boxLookupOf boxes)
      (n :: arrows.map ArrowD.start) hU (fuelFor boxes arrows) n []
      { cache := [], log := [] } (List.mem_cons_self _ _) hlen
    rw [hr] at this
    exact this
  have hNoNF : ∀ m, r1 ≠ .raise (.notFound m) := by
    intro m
    have := dag_no_notFound eng (buildGraph boxes arrows) (boxLookupOf boxes) hPF
      (fuelFor boxes arrows) n [] { cache := [], log := [] } hbl m
    rw [hr] at this
    exact this
  have hNoOk : ∀ env, r1 ≠ .ok env := by
    intro env
    have := (dag_cycle_no_ok eng (buildGraph boxes arrows) (boxLookupOf boxes) hcyc
      (fuelFor boxes arrows) n [] { cache := [], log := [] } (fun x _ => rfl)).2 hn env
    rw [hr] at this
    exact this
  cases r1 with
  | ok env => exact absurd rfl (hNoOk env)
  | fuelOut => exact absurd rfl hNoFuel
  | raise e =>
    cases e with
    | notFound m => exact absurd rfl (hNoNF m)
    | cycleDetected m =>
      refine ⟨m, st', rfl, ?_⟩
      have := dag_cycle_raise_path eng (buildGraph boxes arrows) (boxLookupOf boxes)
        (fuelFor boxes arrows) n [] { cache := [], log := [] } (by simp) m
      rw [hr] at this
      exact this rfl

theorem execute_box_code_raise (eng : PyEngine V) (code : String) (env : Env V) {m : String}
    (h : (eng.run code (dictSet env "_last_expr_result" eng.noneVal)).raised = some m) :
    execute_box_code eng code env = { output := .text (m ++ "\n"), error := true } := by
  unfold execute_box_code execute_code
  simp only [h]

theorem execute_box_code_noraise (eng : PyEngine V) (code : String) (env : Env V)
    (h : (eng.run code (dictSet env "_last_expr_result" eng.noneVal)).raised = none) :
    (execute_box_code eng code env).error = false := by
  unfold execute_box_code execute_code
  simp only [h, Option.isSome_none, Bool.false_eq_true, if_false]
  split
  · rfl
  · split <;> rfl

end TopLevel

/-!
## The `_last_expr_result` invariant
-/

theorem dictContains_dictUpdate_of_items {K V : Type} [DecidableEq K]
    {items : List (K × V)} {k : K} (d : Dict K V) (h : dictContains items k = true) :
    dictContains (dictUpdate d items) k = true := by
  induction items generalizing d with
  | nil => simp [dictContains, dictGet] at h
  | cons kv rest ih =>
    obtain ⟨k0, v0⟩ := kv
    by_cases h0 : k0 = k
    · subst h0
      show dictContains (dictUpdate (dictSet d k0 v0) rest) k0 = true
      exact dictContains_dictUpdate_of rest (by
        unfold dictContains
        rw [dictGet_dictSet_self]
        rfl)
    · simp only [dictContains, dictGet, h0, if_false] at h
      exact ih _ h

theorem execute_single_box_key (eng : PyEngine V) (code : String) (env : Env V) :
    dictContains (execute_single_box eng code env) "_last_expr_result" = true := by
  unfold execute_single_box execute_code
  exact dictContains_dictUpdate_of _ (by
    unfold dictContains
    rw [dictGet_dictSet_self]
    rfl)

/-- Every environment the cache holds binds `_last_expr_result`. -/
def KeyInv {V : Type} (st : DagState V) : Prop :=
  ∀ k e, dictGet st.cache k = some e → dictContains e "_last_expr_result" = true

theorem parents_state_inv {V : Type}
    {recur : String → DagState V → DagOut (Env V) × DagState V}
    {P : DagState V → Prop} (hrec : ∀ p st, P st → P ((recur p st).2)) :
    ∀ ps acc st, P st → P ((execute_parents recur ps acc st).2) := by
  intro ps
  induction ps with
  | nil => intro acc st h; exact h
  | cons p ps ih =>
    intro acc st h
    rcases hpst : recur p st with ⟨r1, st'⟩
    have h' : P st' := by
      have := hrec p st h
      rw [hpst] at this
      exact this
    rw [execute_parents_cons, hpst]
    cases r1 with
    | ok penv => exact ih _ _ h'
    | raise e => exact h'
    | fuelOut => exact h'

theorem dag_key_inv {V : Type} (eng : PyEngine V) (g : Dict String (List String))
    (bl : Dict String BoxD) :
    ∀ fuel n visited st, KeyInv st →
      KeyInv ((execute_dag_node eng g bl fuel n visited st).2) ∧
      (∀ env, (execute_dag_node eng g bl fuel n visited st).1 = .ok env →
        dictContains env "_last_expr_result" = true) := by
  intro fuel
  induction fuel with
  | zero =>
    intro n visited st h
    rw [execute_dag_node_zero]
    exact ⟨h, fun env henv => by cases henv⟩
  | succ fuel ih =>
    intro n visited st h
    rcases hcget : dictGet st.cache n with _ | env
    · by_cases hv : visited.contains n = true
      · rw [execute_dag_node_cycle eng g bl hcget hv]
        exact ⟨h, fun env henv => by cases henv⟩
      · have hv' : visited.contains n = false := by
          cases h2 : visited.contains n
          · rfl
          · exact absurd h2 hv
        rcases hb : dictGet bl n with _ | box
        · rw [execute_dag_node_missing eng g bl hcget hv' hb]
          exact ⟨h, fun env henv => by cases henv⟩
        · rw [execute_dag_node_go eng g bl hcget hv' hb]
          have hfold : KeyInv ((execute_parents
              (fun p st' => execute_dag_node eng g bl fuel p (n :: visited) st')
              (parentsOf g n) [] st).2) :=
            parents_state_inv (fun p st' h' => (ih p (n :: visited) st' h').1)
              (parentsOf g n) [] st h
          rcases hf : execute_parents
              (fun p st' => execute_dag_node eng g bl fuel p (n :: visited) st')
              (parentsOf g n) [] st with ⟨fr, st'⟩
          rw [hf] at hfold
          cases fr with
          | ok merged =>
            refine ⟨?_, ?_⟩
            · intro k e hke
              have hke' : dictGet (dictSet st'.cache n
                  (execute_single_box eng box.content merged)) k = some e := hke
              rw [dictGet_dictSet] at hke'
              by_cases hnk : n = k
              · rw [if_pos hnk] at hke'
                cases hke'
                exact execute_single_box_key eng _ _
              · rw [if_neg hnk] at hke'
                exact hfold k e hke'
            · intro env henv
              have h2 : execute_single_box eng box.content merged = env := by
                simpa using henv
              rw [← h2]
              exact execute_single_box_key eng _ _
          | raise e => exact ⟨hfold, fun env henv => by cases henv⟩
          | fuelOut => exact ⟨hfold, fun env henv => by cases henv⟩
    · rw [execute_dag_node_cached eng g bl hcget]
      refine ⟨h, ?_⟩
      intro env2 henv
      have henv' : DagOut.ok env = DagOut.ok (α := Env V) env2 := henv
      have h3 : env = env2 := by injection henv'
      exact h3 ▸ h n env hcget

/-!
## Dangling-edge behaviour of `buildGraph`
-/

theorem contains_boxesFold (boxes : List BoxD) :
    ∀ (g0 : Dict String (List String)) (k : String),
      dictContains (boxes.foldl (fun g b => dictSet g b.id ([] : List String)) g0) k =
        ((boxes.map BoxD.id).contains k || dictContains g0 k) := by
  induction boxes with
  | nil => intro g0 k; simp
  | cons b tl ih =>
    intro g0 k
    rw [List.foldl_cons, ih (dictSet g0 b.id []) k, dictContains_dictSet,
      List.map_cons, List.contains_cons]
    by_cases h : b.id = k
    · simp [h]
    · have h' : ¬(k == b.id) = true := by
        simp only [beq_iff_eq]
        exact fun hh => h hh.symm
      simp [h, h']

theorem arrowsFold_filter {boxes : List BoxD} (as : List ArrowD) :
    ∀ (g0 : Dict String (List String)),
      (∀ k, dictContains g0 k = (boxes.map BoxD.id).contains k) →
      as.foldl
          (fun g a =>
            if dictContains g a.«end» then
              dictSet g a.«end» ((dictGet g a.«end»).getD [] ++ [a.start])
            else g) g0 =
        (as.filter (fun a => (boxes.map BoxD.id).contains a.«end»)).foldl
          (fun g a =>
            if dictContains g a.«end» then
              dictSet g a.«end» ((dictGet g a.«end»).getD [] ++ [a.start])
            else g) g0 := by
  induction as with
  | nil => intro g0 _; rfl
  | cons a tl ih =>
    intro g0 hkeys
    rw [List.foldl_cons, List.filter_cons]
    by_cases h : (boxes.map BoxD.id).contains a.«end» = true
    · rw [if_pos h, List.foldl_cons]
      have hc : dictContains g0 a.«end» = true := by rw [hkeys]; exact h
      rw [if_pos hc]
      apply ih
      intro k
      rw [dictContains_dictSet, hkeys k]
      by_cases hk : a.«end» = k
      · subst hk
        rw [h, decide_eq_true rfl, Bool.true_or]
      · rw [decide_eq_false hk, Bool.false_or]
    · rw [if_neg h]
      have hc2 : ¬dictContains g0 a.«end» = true := by rw [hkeys]; exact h
      rw [if_neg hc2]
      exact ih g0 hkeys

/-- Arrows whose `end` has no box never affect the adjacency: `buildGraph`
drops them silently. -/
theorem buildGraph_filter (boxes : List BoxD) (arrows : List ArrowD) :
    buildGraph boxes arrows =
      buildGraph boxes (arrows.filter (fun a => (boxes.map BoxD.id).contains a.«end»)) := by
  unfold buildGraph
  exact arrowsFold_filter arrows _ (fun k => by rw [contains_boxesFold]; simp [dictContains, dictGet])

/-!
## Claim theorems
-/

/-- **C1, counterexample.**  The claim says every node reachable from the
target — the target included — is evaluated exactly once per resolution call.
On the one-node graph `{A}` with no arrows, one call to
`execute_with_dependencies` hands `A`'s content to the engine twice: once
inside `_execute_dag_node` (whose result is cached) and once more in the final
`_execute_box_code` run, so the engine-invocation trace is `[A, A]`, not
`[A]`. -/
theorem claim_C1_counterexample :
    (execute_with_dependencies inertEngine { execution_cache := [] } "A" "x"
        [⟨"A", "pass"⟩] []).2.2 = ["A", "A"] ∧
    ¬((execute_with_dependencies inertEngine { execution_cache := [] } "A" "x"
        [⟨"A", "pass"⟩] []).2.2.count "A" = 1) := by
  constructor
  · rfl
  · decide

/-- **C8.**  Resolving the same target twice against an unchanged node set and
edge set yields identical output: `execute_with_dependencies` resets the
instance cache before doing anything else, so its result does not depend on
the executor state it starts from — in particular a second call starting from
the state the first call left behind returns exactly the first call's
result. -/
theorem claim_C8 {V : Type} (eng : PyEngine V) (self1 self2 : CodeExecutor V)
    (box_id code : String) (boxes : List BoxD) (arrows : List ArrowD) :
    execute_with_dependencies eng self1 box_id code boxes arrows =
      execute_with_dependencies eng self2 box_id code boxes arrows ∧
    (execute_with_dependencies eng
        (execute_with_dependencies eng self1 box_id code boxes arrows).2.1
        box_id code boxes arrows).1 =
      (execute_with_dependencies eng self1 box_id code boxes arrows).1 :=
  ⟨rfl, rfl⟩

/-- **C9.**  The result of `execute_with_dependencies` is independent of its
`code` argument: the stored target box's `content` — not the supplied code
string — is what gets evaluated, so two calls differing only in `code` return
identical results. -/
theorem claim_C9 {V : Type} (eng : PyEngine V) (self : CodeExecutor V)
    (box_id code1 code2 : String) (boxes : List BoxD) (arrows : List ArrowD) :
    execute_with_dependencies eng self box_id code1 boxes arrows =
      execute_with_dependencies eng self box_id code2 boxes arrows := rfl

/-- **C6, code bug, evaluated at the failing input.**  Reference-semantics run
of the failing input: one box `A` whose code rebinds `x` to one more than its
current value, no arrows.  After the DAG phase the cache maps `A` to dict
object `1`, whose contents are `{_last_expr_result: None, x: 1}` — that is
what was stored.  After the full request the cache still maps `A` to object
`1`, but the final `_execute_box_code` run of the target wrote through that
same object: its contents are now `{_last_expr_result: None, x: 2}`.  The
cached environment was mutated in place after being stored, contradicting the
claim's copy-on-write guarantee. -/
theorem claim_C6 :
    dictGet (RefSem.execute_dag_node_ref incrEngine (buildGraph [⟨"A", "incr"⟩] [])
        (boxLookupOf [⟨"A", "incr"⟩]) (fuelFor [⟨"A", "incr"⟩] []) "A" []
        { heap := [], nextRef := 0, cache := [] }).2.cache "A" = some 1 ∧
    RefSem.readRef (RefSem.execute_dag_node_ref incrEngine (buildGraph [⟨"A", "incr"⟩] [])
        (boxLookupOf [⟨"A", "incr"⟩]) (fuelFor [⟨"A", "incr"⟩] []) "A" []
        { heap := [], nextRef := 0, cache := [] }).2 1 =
      [("_last_expr_result", 0), ("x", 1)] ∧
    dictGet (RefSem.execute_with_dependencies_ref incrEngine "A"
        [⟨"A", "incr"⟩] []).2.cache "A" = some 1 ∧
    RefSem.readRef (RefSem.execute_with_dependencies_ref incrEngine "A"
        [⟨"A", "incr"⟩] []).2 1 = [("_last_expr_result", 0), ("x", 2)] ∧
    RefSem.readRef (RefSem.execute_with_dependencies_ref incrEngine "A"
        [⟨"A", "incr"⟩] []).2 1 ≠
      RefSem.readRef (RefSem.execute_dag_node_ref incrEngine (buildGraph [⟨"A", "incr"⟩] [])
        (boxLookupOf [⟨"A", "incr"⟩]) (fuelFor [⟨"A", "incr"⟩] []) "A" []
        { heap := [], nextRef := 0, cache := [] }).2 1 := by
  refine ⟨rfl, rfl, rfl, rfl, ?_⟩
  decide

/-- **C7, counterexample.**  The claim says an edge with a dangling endpoint
surfaces a referential error.  The edge `A → B` whose `end` `B` has no box is
silently skipped when the adjacency is built (`if arrow['end'] in graph`), so
resolving `A` succeeds with no error at all and the graph is just
`{A: []}`. -/
theorem claim_C7_counterexample :
    (execute_with_dependencies inertEngine { execution_cache := [] } "A" "x"
        [⟨"A", "pass"⟩] [⟨"A", "B"⟩]).1.error = false ∧
    buildGraph [⟨"A", "pass"⟩] [⟨"A", "B"⟩] = [("A", [])] := ⟨rfl, rfl⟩

/-- **C1, amended.**  On a graph whose region reachable from the target is
acyclic and fully present (witnessed by a topological certificate `L`),
`execute_with_dependencies` terminates successfully and its engine-invocation
trace is the DAG-phase log followed by one extra evaluation of the target: the
DAG phase evaluates every node reachable from the target (the target included)
exactly once — the memoization guarantee — and the final `_execute_box_code`
step then evaluates the target's content a second time, so per resolution call
the target's code runs twice and every other reachable node's code runs
once. -/
theorem claim_C1 {V : Type} (eng : PyEngine V) (self : CodeExecutor V)
    (box_id code : String) (boxes : List BoxD) (arrows : List ArrowD)
    {L : List String} {tbox : BoxD}
    (hT : TopoOk (buildGraph boxes arrows) (boxLookupOf boxes) L)
    (hn : box_id ∈ L)
    (hfind : boxes.find? (fun box => box.id == box_id) = some tbox) :
    ∃ dagLog,
      (execute_with_dependencies eng self box_id code boxes arrows).2.2 =
        dagLog ++ [box_id] ∧
      dagLog.Nodup ∧
      (∀ m, m ∈ dagLog ↔ Reach (buildGraph boxes arrows) box_id m) ∧
      (execute_with_dependencies eng self box_id code boxes arrows).2.2.count box_id = 2 ∧
      (∀ m, m ≠ box_id → Reach (buildGraph boxes arrows) box_id m →
        (execute_with_dependencies eng self box_id code boxes arrows).2.2.count m = 1) ∧
      (∀ m, ¬Reach (buildGraph boxes arrows) box_id m →
        (execute_with_dependencies eng self box_id code boxes arrows).2.2.count m = 0) := by
  obtain ⟨env, st', heq, hnd, hiff, hget⟩ := dag_top_spec eng boxes arrows hT hn
  have htrace : (execute_with_dependencies eng self box_id code boxes arrows).2.2 =
      st'.log ++ [box_id] := by
    rw [execute_with_dependencies_eq eng self box_id code boxes arrows hfind, heq]
  refine ⟨st'.log, htrace, hnd, hiff, ?_, ?_, ?_⟩
  · rw [htrace, List.count_append]
    have hmem : box_id ∈ st'.log := (hiff box_id).mpr (Reach.refl box_id)
    rw [List.count_eq_one_of_mem hnd hmem, List.count_singleton_self]
  · intro m hm hreach
    rw [htrace, List.count_append]
    have hmem : m ∈ st'.log := (hiff m).mpr hreach
    rw [List.count_eq_one_of_mem hnd hmem]
    have : [box_id].count m = 0 :=
      List.count_eq_zero.mpr (by simpa using hm)
    rw [this]
  · intro m hm
    rw [htrace, List.count_append]
    have hnm : m ∉ st'.log := fun hmem => hm ((hiff m).mp hmem)
    rw [List.count_eq_zero.mpr hnm]
    have hmb : m ≠ box_id := fun h => hm (by rw [h]; exact Reach.refl box_id)
    have : [box_id].count m = 0 := List.count_eq_zero.mpr (by simpa using hmb)
    rw [this]

/-- **C2.**  For a node `n` of the graph, its parents are the `start` of every
arrow whose `end` is `n`, in the order the arrows were supplied; the parent
loop folds each parent's environment into the accumulator in that order with
`merged_env.update(parent_env)`, so the merged input environment is
`{} ⊕ e₁ ⊕ e₂ ⊕ e₃`; and a binding from the later-listed parent overwrites the
same name from earlier parents — with three parents each binding `x`, the
merged environment's `x` is `P3`'s value. -/
theorem claim_C2 {V : Type} (boxes : List BoxD) (arrows : List ArrowD) (n : String)
    (hn : n ∈ boxes.map BoxD.id)
    (recur : String → DagState V → DagOut (Env V) × DagState V)
    (P1 P2 P3 x : String) (v3 : V) (e1 e2 e3 : Env V) (st st1 st2 st3 : DagState V)
    (h1 : recur P1 st = (.ok e1, st1)) (h2 : recur P2 st1 = (.ok e2, st2))
    (h3 : recur P3 st2 = (.ok e3, st3))
    (hnd : keysNodupB e3 = true) (hx : dictGet e3 x = some v3) :
    parentsOf (buildGraph boxes arrows) n =
      (arrows.filter (fun a => a.«end» == n)).map ArrowD.start ∧
    execute_parents recur [P1, P2, P3] [] st =
      (.ok (dictUpdate (dictUpdate (dictUpdate [] e1) e2) e3), st3) ∧
    dictGet (dictUpdate (dictUpdate (dictUpdate [] e1) e2) e3) x = some v3 := by
  refine ⟨buildGraph_parents hn, ?_, dictGet_dictUpdate_of_get _ hnd hx⟩
  have s1 : execute_parents recur [P1, P2, P3] [] st =
      execute_parents recur [P2, P3] (dictUpdate [] e1) st1 := by
    rw [execute_parents_cons, h1]
  have s2 : execute_parents recur [P2, P3] (dictUpdate [] e1) st1 =
      execute_parents recur [P3] (dictUpdate (dictUpdate [] e1) e2) st2 := by
    rw [execute_parents_cons, h2]
  have s3 : execute_parents recur [P3] (dictUpdate (dictUpdate [] e1) e2) st2 =
      (.ok (dictUpdate (dictUpdate (dictUpdate [] e1) e2) e3), st3) := by
    rw [execute_parents_cons, h3]
    rfl
  rw [s1, s2, s3]

/-- **C5.**  When the target node's own evaluation fails (its engine run
raises), the failure is fatal and surfaced: `execute_with_dependencies`
returns `{output: <diagnostic>, error: true}` — the exception text followed by
a newline — and never swallows it. -/
theorem claim_C5 {V : Type} (eng : PyEngine V) (self : CodeExecutor V)
    (box_id code : String) (boxes : List BoxD) (arrows : List ArrowD)
    {tbox : BoxD} {env : Env V} {st : DagState V} {msg : String}
    (hfind : boxes.find? (fun box => box.id == box_id) = some tbox)
    (hdag : execute_dag_node eng (buildGraph boxes arrows) (boxLookupOf boxes)
      (fuelFor boxes arrows) box_id [] { cache := [], log := [] } = (.ok env, st))
    (hraise : (eng.run tbox.content (dictSet env "_last_expr_result" eng.noneVal)).raised =
      some msg) :
    (execute_with_dependencies eng self box_id code boxes arrows).1 =
      { output := .text (msg ++ "\n"), error := true } := by
  rw [execute_with_dependencies_eq eng self box_id code boxes arrows hfind, hdag]
  exact execute_box_code_raise eng tbox.content env hraise

/-- **C7, amended.**  An arrow whose `end` has no box is silently dropped when
the adjacency is built, so it never influences any resolution; an arrow whose
`start` has no box does surface a referential error: resolving that missing id
raises `Box with ID ... not found in graph`, and a resolver exception is
returned by the top level as `{output: <ValueError text>, error: true}`. -/
theorem claim_C7 {V : Type} :
    (∀ (boxes : List BoxD) (arrows : List ArrowD),
      buildGraph boxes arrows =
        buildGraph boxes (arrows.filter (fun a => (boxes.map BoxD.id).contains a.«end»))) ∧
    (∀ (eng : PyEngine V) (g : Dict String (List String)) (bl : Dict String BoxD)
      (fuel : Nat) (n : String) (visited : List String) (st : DagState V),
      dictGet st.cache n = none → visited.contains n = false → dictGet bl n = none →
      execute_dag_node eng g bl (fuel + 1) n visited st = (.raise (.notFound n), st)) ∧
    (∀ (eng : PyEngine V) (self : CodeExecutor V) (box_id code : String)
      (boxes : List BoxD) (arrows : List ArrowD) (tbox : BoxD) (e : PyErr)
      (st : DagState V),
      boxes.find? (fun box => box.id == box_id) = some tbox →
      execute_dag_node eng (buildGraph boxes arrows) (boxLookupOf boxes)
        (fuelFor boxes arrows) box_id [] { cache := [], log := [] } = (.raise e, st) →
      (execute_with_dependencies eng self box_id code boxes arrows).1 =
        { output := .text (errText e), error := true }) := by
  refine ⟨buildGraph_filter, ?_, ?_⟩
  · intro eng g bl fuel n visited st hc hv hb
    exact execute_dag_node_missing eng g bl hc hv hb
  · intro eng self box_id code boxes arrows tbox e st hfind hdag
    rw [execute_with_dependencies_eq eng self box_id code boxes arrows hfind, hdag]

/-- **C10.**  Every environment produced by evaluating a node binds
`_last_expr_result` (injected by `_execute_code` before running the node's
code, and never removed by the assignments the code performs); consequently
every environment the cache holds during resolution binds it, every
environment a successful `_execute_dag_node` call returns binds it, and a
merged input environment seeded from at least one parent environment that
binds it binds it as well. -/
theorem claim_C10 {V : Type} (eng : PyEngine V) (g : Dict String (List String))
    (bl : Dict String BoxD) :
    (∀ code env, dictContains (execute_single_box eng code env) "_last_expr_result" = true) ∧
    (∀ fuel n visited (st : DagState V), KeyInv st →
      KeyInv ((execute_dag_node eng g bl fuel n visited st).2) ∧
      (∀ env, (execute_dag_node eng g bl fuel n visited st).1 = .ok env →
        dictContains env "_last_expr_result" = true)) ∧
    (∀ es : List (Env V), (∃ e ∈ es, dictContains e "_last_expr_result" = true) →
      dictContains (es.foldl dictUpdate []) "_last_expr_result" = true) := by
  refine ⟨execute_single_box_key eng, dag_key_inv eng g bl, ?_⟩
  have H : ∀ (es : List (Env V)) (acc : Env V),
      ((∃ e ∈ es, dictContains e "_last_expr_result" = true) ∨
        dictContains acc "_last_expr_result" = true) →
      dictContains (es.foldl dictUpdate acc) "_last_expr_result" = true := by
    intro es
    induction es with
    | nil =>
      intro acc h
      rcases h with ⟨e, he, _⟩ | h
      · simp at he
      · exact h
    | cons e0 rest ih =>
      intro acc h
      rw [List.foldl_cons]
      apply ih
      rcases h with ⟨e, he, hkey⟩ | h
      · rcases List.mem_cons.mp he with h1 | h1
        · exact Or.inr (dictContains_dictUpdate_of_items _ (h1 ▸ hkey))
        · exact Or.inl ⟨e, h1, hkey⟩
      · exact Or.inr (dictContains_dictUpdate_of _ h)
  intro es h
  exact H es [] (Or.inl h)

/-- **C3.**  On a graph with an edge cycle — given as a nonempty node set `c`
each of whose members has a parent in `c`, e.g. the nodes of `A→B→C→A` — and
whose parent ids all have boxes, resolving a target inside `c` returns
`{output: "ValueError: Cycle detected in dependency graph at node <m>", error:
true}` where `m` is a revisited node of the active recursion path, i.e. a node
lying on a dependency cycle (`ParentSteps g m m`).  And resolving a node `D`
whose own reachable region is acyclic and fully present (certificate `L`)
still succeeds, the cycle elsewhere in the graph notwithstanding: its
resolution returns an environment, and the request reports no error provided
`D`'s own code does not raise. -/
theorem claim_C3 {V : Type} (eng : PyEngine V) (self : CodeExecutor V)
    (box_id code D codeD : String) (boxes : List BoxD) (arrows : List ArrowD)
    {c : List String} {L : List String} {dbox : BoxD}
    (hcyc : ∀ x ∈ c, ∃ p ∈ parentsOf (buildGraph boxes arrows) x, p ∈ c)
    (hn : box_id ∈ c)
    (hPF : ParentsFound (buildGraph boxes arrows) (boxLookupOf boxes))
    (hbl : dictContains (boxLookupOf boxes) box_id = true)
    (hT : TopoOk (buildGraph boxes arrows) (boxLookupOf boxes) L)
    (hD : D ∈ L)
    (hfindD : boxes.find? (fun box => box.id == D) = some dbox)
    (hnoraise : ∀ env, (eng.run dbox.content env).raised = none) :
    (∃ m,
      (execute_with_dependencies eng self box_id code boxes arrows).1 =
        { output := .text (errText (.cycleDetected m)), error := true } ∧
      ParentSteps (buildGraph boxes arrows) m m) ∧
    (execute_with_dependencies eng self D codeD boxes arrows).1.error = false := by
  constructor
  · obtain ⟨m, st', heq, hps⟩ := dag_top_cycle eng boxes arrows hcyc hPF hn hbl
    refine ⟨m, ?_, hps⟩
    rcases hfind : boxes.find? (fun box => box.id == box_id) with _ | tbox
    · exfalso
      obtain ⟨b, hb⟩ := dictContains_eq_true_iff.mp hbl
      obtain ⟨hbmem, hbid⟩ : b ∈ boxes ∧ b.id = box_id := by
        have hent := mem_of_dictGet hb
        suffices H : ∀ (bs : List BoxD) (m0 : Dict String BoxD),
            (box_id, b) ∈ bs.foldl (fun m' b' => dictSet m' b'.id b') m0 →
            (b ∈ bs ∧ b.id = box_id) ∨ (box_id, b) ∈ m0 by
          rcases H boxes [] hent with h1 | h1
          · exact h1
          · simp at h1
        intro bs
        induction bs with
        | nil => exact fun m0 h => Or.inr h
        | cons b0 tl ih =>
          intro m0 h
          rcases ih (dictSet m0 b0.id b0) h with h1 | h1
          · exact Or.inl ⟨List.mem_cons_of_mem _ h1.1, h1.2⟩
          · rcases mem_dictSet h1 with h2 | h2
            · have hb0 : b0 = b ∧ b0.id = box_id := by
                have hfst : box_id = b0.id := congrArg Prod.fst h2
                have hsnd : b = b0 := congrArg Prod.snd h2
                exact ⟨hsnd.symm, hfst.symm⟩
              exact Or.inl ⟨hb0.1 ▸ List.mem_cons_self _ _, hb0.1 ▸ hb0.2⟩
            · exact Or.inr h2
      have := List.find?_eq_none.mp hfind b hbmem
      simp [hbid] at this
    · rw [execute_with_dependencies_eq eng self box_id code boxes arrows hfind, heq]
  · obtain ⟨env, st', heq, _, _, _⟩ := dag_top_spec eng boxes arrows hT hD
    rw [execute_with_dependencies_eq eng self D codeD boxes arrows hfindD, heq]
    exact execute_box_code_noraise eng dbox.content env (hnoraise _)

/-- **C4.**  A non-target ancestor's evaluation failure is non-fatal and
invisible to the resolver: `_execute_single_box` returns the partial
environment the failed run produced (the assignments made before raising, on
top of its input), so the resolver computes exactly the same result on the
engine as on the engine with every failure suppressed; and the node itself
still produces a result — on an acyclic, fully-present region the request
reports no error as long as the target's own code does not raise, no matter
which ancestors failed. -/
theorem claim_C4 {V : Type} (eng : PyEngine V) (self : CodeExecutor V)
    (box_id code : String) (boxes : List BoxD) (arrows : List ArrowD)
    {L : List String} {tbox : BoxD}
    (hT : TopoOk (buildGraph boxes arrows) (boxLookupOf boxes) L)
    (hn : box_id ∈ L)
    (hfind : boxes.find? (fun box => box.id == box_id) = some tbox)
    (hnoraise : ∀ env, (eng.run tbox.content env).raised = none) :
    (∀ (c : String) (e : Env V),
      execute_single_box (silenceFailures eng) c e = execute_single_box eng c e) ∧
    (∀ (g : Dict String (List String)) (bl : Dict String BoxD) (fuel : Nat)
      (n : String) (visited : List String) (st : DagState V),
      execute_dag_node (silenceFailures eng) g bl fuel n visited st =
        execute_dag_node eng g bl fuel n visited st) ∧
    (execute_with_dependencies eng self box_id code boxes arrows).1.error = false := by
  refine ⟨execute_single_box_silence eng, ?_, ?_⟩
  · intro g bl fuel n visited st
    exact execute_dag_node_silence eng g bl fuel n visited st
  · obtain ⟨env, st', heq, _, _, _⟩ := dag_top_spec eng boxes arrows hT hn
    rw [execute_with_dependencies_eq eng self box_id code boxes arrows hfind, heq]
    exact execute_box_code_noraise eng tbox.content env (hnoraise _)

/-!
## Witnesses: the claim theorems applied to concrete inputs
-/

/-- `claim_C1` at the diamond graph `A→B, A→C, B→D, C→D`, resolving `D`. -/
theorem claim_C1_witness :
    TopoOk (buildGraph [⟨"A", "a"⟩, ⟨"B", "b"⟩, ⟨"C", "c"⟩, ⟨"D", "d"⟩]
        [⟨"A", "B"⟩, ⟨"A", "C"⟩, ⟨"B", "D"⟩, ⟨"C", "D"⟩])
      (boxLookupOf [⟨"A", "a"⟩, ⟨"B", "b"⟩, ⟨"C", "c"⟩, ⟨"D", "d"⟩])
      ["A", "B", "C", "D"] ∧
    "D" ∈ ["A", "B", "C", "D"] ∧
    (∃ dagLog,
      (execute_with_dependencies inertEngine { execution_cache := [] } "D" "x"
          [⟨"A", "a"⟩, ⟨"B", "b"⟩, ⟨"C", "c"⟩, ⟨"D", "d"⟩]
          [⟨"A", "B"⟩, ⟨"A", "C"⟩, ⟨"B", "D"⟩, ⟨"C", "D"⟩]).2.2 = dagLog ++ ["D"] ∧
      dagLog.Nodup ∧
      (∀ m, m ∈ dagLog ↔ Reach (buildGraph [⟨"A", "a"⟩, ⟨"B", "b"⟩, ⟨"C", "c"⟩, ⟨"D", "d"⟩]
        [⟨"A", "B"⟩, ⟨"A", "C"⟩, ⟨"B", "D"⟩, ⟨"C", "D"⟩]) "D" m) ∧
      (execute_with_dependencies inertEngine { execution_cache := [] } "D" "x"
          [⟨"A", "a"⟩, ⟨"B", "b"⟩, ⟨"C", "c"⟩, ⟨"D", "d"⟩]
          [⟨"A", "B"⟩, ⟨"A", "C"⟩, ⟨"B", "D"⟩, ⟨"C", "D"⟩]).2.2.count "D" = 2 ∧
      (∀ m, m ≠ "D" → Reach (buildGraph [⟨"A", "a"⟩, ⟨"B", "b"⟩, ⟨"C", "c"⟩, ⟨"D", "d"⟩]
          [⟨"A", "B"⟩, ⟨"A", "C"⟩, ⟨"B", "D"⟩, ⟨"C", "D"⟩]) "D" m →
        (execute_with_dependencies inertEngine { execution_cache := [] } "D" "x"
          [⟨"A", "a"⟩, ⟨"B", "b"⟩, ⟨"C", "c"⟩, ⟨"D", "d"⟩]
          [⟨"A", "B"⟩, ⟨"A", "C"⟩, ⟨"B", "D"⟩, ⟨"C", "D"⟩]).2.2.count m = 1) ∧
      (∀ m, ¬Reach (buildGraph [⟨"A", "a"⟩, ⟨"B", "b"⟩, ⟨"C", "c"⟩, ⟨"D", "d"⟩]
          [⟨"A", "B"⟩, ⟨"A", "C"⟩, ⟨"B", "D"⟩, ⟨"C", "D"⟩]) "D" m →
        (execute_with_dependencies inertEngine { execution_cache := [] } "D" "x"
          [⟨"A", "a"⟩, ⟨"B", "b"⟩, ⟨"C", "c"⟩, ⟨"D", "d"⟩]
          [⟨"A", "B"⟩, ⟨"A", "C"⟩, ⟨"B", "D"⟩, ⟨"C", "D"⟩]).2.2.count m = 0)) :=
  ⟨by decide, by decide,
    claim_C1 (L := ["A", "B", "C", "D"]) inertEngine { execution_cache := [] } "D" "x"
      [⟨"A", "a"⟩, ⟨"B", "b"⟩, ⟨"C", "c"⟩, ⟨"D", "d"⟩]
      [⟨"A", "B"⟩, ⟨"A", "C"⟩, ⟨"B", "D"⟩, ⟨"C", "D"⟩]
      (by decide) (by decide) rfl⟩

/-- `claim_C2` at three parents binding `x` to `1`, `2`, `3`. -/
theorem claim_C2_witness :
    ("N" ∈ ([⟨"P1", "a"⟩, ⟨"P2", "b"⟩, ⟨"P3", "c"⟩, ⟨"N", "n"⟩] : List BoxD).map BoxD.id) ∧
    keysNodupB ([("x", (3 : Nat))] : Env Nat) = true ∧
    dictGet ([("x", (3 : Nat))] : Env Nat) "x" = some 3 ∧
    (parentsOf (buildGraph [⟨"P1", "a"⟩, ⟨"P2", "b"⟩, ⟨"P3", "c"⟩, ⟨"N", "n"⟩]
        [⟨"P1", "N"⟩, ⟨"P2", "N"⟩, ⟨"P3", "N"⟩]) "N" =
      (([⟨"P1", "N"⟩, ⟨"P2", "N"⟩, ⟨"P3", "N"⟩] : List ArrowD).filter
        (fun a => a.«end» == "N")).map ArrowD.start ∧
    execute_parents
        (fun p st =>
          (.ok (if p = "P1" then [("x", (1 : Nat))]
            else if p = "P2" then [("x", 2)] else [("x", 3)]), st))
        ["P1", "P2", "P3"] [] { cache := [], log := [] } =
      (.ok (dictUpdate (dictUpdate (dictUpdate [] [("x", (1 : Nat))]) [("x", 2)])
        [("x", 3)]), { cache := [], log := [] }) ∧
    dictGet (dictUpdate (dictUpdate (dictUpdate [] [("x", (1 : Nat))]) [("x", 2)])
      [("x", 3)]) "x" = some 3) :=
  ⟨by decide, rfl, rfl,
    claim_C2 [⟨"P1", "a"⟩, ⟨"P2", "b"⟩, ⟨"P3", "c"⟩, ⟨"N", "n"⟩]
      [⟨"P1", "N"⟩, ⟨"P2", "N"⟩, ⟨"P3", "N"⟩] "N" (by decide)
      (fun p st =>
        (.ok (if p = "P1" then [("x", (1 : Nat))]
          else if p = "P2" then [("x", 2)] else [("x", 3)]), st))
      "P1" "P2" "P3" "x" 3 [("x", 1)] [("x", 2)] [("x", 3)]
      { cache := [], log := [] } { cache := [], log := [] }
      { cache := [], log := [] } { cache := [], log := [] }
      rfl rfl rfl rfl rfl⟩

/-- `claim_C3` at the cycle `A→B→C→A` with unrelated node `D`, resolving `C`
and `D`. -/
theorem claim_C3_witness :
    (∀ x ∈ ["A", "B", "C"], ∃ p ∈ parentsOf (buildGraph
        [⟨"A", "a"⟩, ⟨"B", "b"⟩, ⟨"C", "c"⟩, ⟨"D", "d"⟩]
        [⟨"A", "B"⟩, ⟨"B", "C"⟩, ⟨"C", "A"⟩]) x, p ∈ ["A", "B", "C"]) ∧
    ParentsFound (buildGraph [⟨"A", "a"⟩, ⟨"B", "b"⟩, ⟨"C", "c"⟩, ⟨"D", "d"⟩]
        [⟨"A", "B"⟩, ⟨"B", "C"⟩, ⟨"C", "A"⟩])
      (boxLookupOf [⟨"A", "a"⟩, ⟨"B", "b"⟩, ⟨"C", "c"⟩, ⟨"D", "d"⟩]) ∧
    TopoOk (buildGraph [⟨"A", "a"⟩, ⟨"B", "b"⟩, ⟨"C", "c"⟩, ⟨"D", "d"⟩]
        [⟨"A", "B"⟩, ⟨"B", "C"⟩, ⟨"C", "A"⟩])
      (boxLookupOf [⟨"A", "a"⟩, ⟨"B", "b"⟩, ⟨"C", "c"⟩, ⟨"D", "d"⟩]) ["D"] ∧
    ((∃ m,
      (execute_with_dependencies inertEngine { execution_cache := [] } "C" "x"
          [⟨"A", "a"⟩, ⟨"B", "b"⟩, ⟨"C", "c"⟩, ⟨"D", "d"⟩]
          [⟨"A", "B"⟩, ⟨"B", "C"⟩, ⟨"C", "A"⟩]).1 =
        { output := .text (errText (.cycleDetected m)), error := true } ∧
      ParentSteps (buildGraph [⟨"A", "a"⟩, ⟨"B", "b"⟩, ⟨"C", "c"⟩, ⟨"D", "d"⟩]
        [⟨"A", "B"⟩, ⟨"B", "C"⟩, ⟨"C", "A"⟩]) m m) ∧
    (execute_with_dependencies inertEngine { execution_cache := [] } "D" "y"
        [⟨"A", "a"⟩, ⟨"B", "b"⟩, ⟨"C", "c"⟩, ⟨"D", "d"⟩]
        [⟨"A", "B"⟩, ⟨"B", "C"⟩, ⟨"C", "A"⟩]).1.error = false) :=
  ⟨by decide, by decide, by decide,
    claim_C3 (c := ["A", "B", "C"]) (L := ["D"]) inertEngine { execution_cache := [] }
      "C" "x" "D" "y"
      [⟨"A", "a"⟩, ⟨"B", "b"⟩, ⟨"C", "c"⟩, ⟨"D", "d"⟩]
      [⟨"A", "B"⟩, ⟨"B", "C"⟩, ⟨"C", "A"⟩]
      (by decide) (by decide) (by decide) (by decide) (by decide) (by decide)
      rfl (fun env => rfl)⟩

/-- `claim_C4` at the graph `A→B` where `A`'s code fails, resolving `B`. -/
theorem claim_C4_witness :
    TopoOk (buildGraph [⟨"A", "a"⟩, ⟨"B", "b"⟩] [⟨"A", "B"⟩])
      (boxLookupOf [⟨"A", "a"⟩, ⟨"B", "b"⟩]) ["A", "B"] ∧
    ((∀ (c : String) (e : Env Nat),
      execute_single_box (silenceFailures (tableEngine [] ["a"])) c e =
        execute_single_box (tableEngine [] ["a"]) c e) ∧
    (∀ (g : Dict String (List String)) (bl : Dict String BoxD) (fuel : Nat)
      (n : String) (visited : List String) (st : DagState Nat),
      execute_dag_node (silenceFailures (tableEngine [] ["a"])) g bl fuel n visited st =
        execute_dag_node (tableEngine [] ["a"]) g bl fuel n visited st) ∧
    (execute_with_dependencies (tableEngine [] ["a"]) { execution_cache := [] } "B" "x"
      [⟨"A", "a"⟩, ⟨"B", "b"⟩] [⟨"A", "B"⟩]).1.error = false) :=
  ⟨by decide,
    claim_C4 (L := ["A", "B"]) (tableEngine [] ["a"]) { execution_cache := [] } "B" "x"
      [⟨"A", "a"⟩, ⟨"B", "b"⟩] [⟨"A", "B"⟩] (by decide) (by decide) rfl
      (fun env => rfl)⟩

/-- `claim_C5` at a one-box graph whose target code raises. -/
theorem claim_C5_witness :
    (([⟨"A", "boom"⟩] : List BoxD).find? (fun box => box.id == "A") = some ⟨"A", "boom"⟩) ∧
    (((tableEngine [] ["boom"]).run "boom"
        (dictSet [("_last_expr_result", (0 : Nat))] "_last_expr_result"
          (tableEngine [] ["boom"]).noneVal)).raised = some "RuntimeError: boom in boom") ∧
    (execute_with_dependencies (tableEngine [] ["boom"]) { execution_cache := [] }
        "A" "x" [⟨"A", "boom"⟩] []).1 =
      { output := .text ("RuntimeError: boom in boom" ++ "\n"), error := true } :=
  ⟨rfl, rfl,
    claim_C5 (tableEngine [] ["boom"]) { execution_cache := [] } "A" "x"
      [⟨"A", "boom"⟩] [] rfl rfl rfl⟩

/-- `claim_C7` conjuncts applied at concrete inputs: a dangling-`start` arrow
makes resolving the missing id raise, and a resolver exception surfaces as an
error result. -/
theorem claim_C7_witness :
    (buildGraph [⟨"A", "pass"⟩] [⟨"A", "B"⟩] =
      buildGraph [⟨"A", "pass"⟩]
        (([⟨"A", "B"⟩] : List ArrowD).filter
          (fun a => (([⟨"A", "pass"⟩] : List BoxD).map BoxD.id).contains a.«end»))) ∧
    (execute_dag_node inertEngine [] [] 1 "Z" [] ({ cache := [], log := [] } : DagState Nat) =
      (.raise (.notFound "Z"), { cache := [], log := [] })) ∧
    ((execute_with_dependencies inertEngine { execution_cache := [] } "B" "x"
        [⟨"A", "pass"⟩, ⟨"B", "b"⟩] [⟨"Z", "B"⟩]).1 =
      { output := .text (errText (.notFound "Z")), error := true }) :=
  ⟨(claim_C7 (V := Nat)).1 [⟨"A", "pass"⟩] [⟨"A", "B"⟩],
    (claim_C7 (V := Nat)).2.1 inertEngine [] [] 0 "Z" [] { cache := [], log := [] }
      rfl rfl rfl,
    (claim_C7 (V := Nat)).2.2 inertEngine { execution_cache := [] } "B" "x"
      [⟨"A", "pass"⟩, ⟨"B", "b"⟩] [⟨"Z", "B"⟩] ⟨"B", "b"⟩ (.notFound "Z")
      { cache := [], log := [] } rfl rfl⟩

/-- `claim_C10` applied at a concrete one-box resolution starting from the
empty cache. -/
theorem claim_C10_witness :
    KeyInv ({ cache := [], log := [] } : DagState Nat) ∧
    (KeyInv ((execute_dag_node inertEngine (buildGraph [⟨"A", "a"⟩] [])
        (boxLookupOf [⟨"A", "a"⟩]) 2 "A" [] { cache := [], log := [] }).2) ∧
      (∀ env, (execute_dag_node inertEngine (buildGraph [⟨"A", "a"⟩] [])
          (boxLookupOf [⟨"A", "a"⟩]) 2 "A" [] { cache := [], log := [] }).1 = .ok env →
        dictContains env "_last_expr_result" = true)) ∧
    (∃ e ∈ [[("_last_expr_result", (0 : Nat))]], dictContains e "_last_expr_result" = true) ∧
    dictContains (([[("_last_expr_result", (0 : Nat))]] : List (Env Nat)).foldl
      dictUpdate []) "_last_expr_result" = true := by
  have hinv : KeyInv ({ cache := [], log := [] } : DagState Nat) := by
    intro k e h
    simp [dictGet] at h
  have hex : ∃ e ∈ [[("_last_expr_result", (0 : Nat))]],
      dictContains e "_last_expr_result" = true := ⟨_, List.mem_singleton_self _, rfl⟩
  exact ⟨hinv,
    (claim_C10 inertEngine (buildGraph [⟨"A", "a"⟩] []) (boxLookupOf [⟨"A", "a"⟩])).2.1
      2 "A" [] { cache := [], log := [] } hinv,
    hex,
    (claim_C10 inertEngine (buildGraph [⟨"A", "a"⟩] []) (boxLookupOf [⟨"A", "a"⟩])).2.2
      [[("_last_expr_result", (0 : Nat))]] hex⟩

end CanvasExec
